import Mathlib

/-!
Verification of the Code Graph Extraction Engine of the hunttdown
repository (src/src/lib/analyzer/engine.ts, src/src/lib/analyzer/types.ts,
and the analysis POST handler).

The engine is shallowly embedded: every source construct that the claims
depend on is translated into an executable Lean definition.  JavaScript
`Map` objects become association lists with JavaScript `Map` semantics
(insertion order preserved, `set` on an existing key updates in place),
the ts-morph syntax tree is abstracted into the exact observations the
engine makes of it (declarations, call expressions with their ancestor
chains, resolved import targets, symbol resolution results), and the
Node.js `path` helpers are modelled character-list-wise for the
forward-slash paths the engine works with.

The engine never reads the edge map during the two passes (it only ever
calls `addEdge`), so edge accumulation is represented as the ordered list
of `addEdge` invocations (`Obs`), folded through `addEdge` at assembly
time; this is observationally identical to the source's interleaved
mutation.
-/

set_option maxHeartbeats 1000000

namespace HuntAnalyzer

/-! ## Character-list string utilities -/

/-- JavaScript `s.startsWith(pre)`. -/
def strStartsWith (s pre : String) : Bool := pre.data.isPrefixOf s.data

/-- JavaScript `s.endsWith(suf)`. -/
def strEndsWith (s suf : String) : Bool := suf.data.isSuffixOf s.data

/-- JavaScript `s.includes(pat)` (substring containment). -/
def strContainsSub (s pat : String) : Bool := decide (pat.data <:+: s.data)

/-- JavaScript `s.slice(0, n)` (the engine only slices from 0). -/
def strTake (s : String) (n : Nat) : String := String.mk (s.data.take n)

/-- Drop the first `n` characters. -/
def strDropChars (s : String) (n : Nat) : String := String.mk (s.data.drop n)

/-- JavaScript `s.toLowerCase()` restricted to per-character lowering. -/
def strToLower (s : String) : String := String.mk (s.data.map Char.toLower)

/-- JavaScript `s.trim()`. -/
def strTrim (s : String) : String :=
  String.mk (((s.data.dropWhile Char.isWhitespace).reverse.dropWhile Char.isWhitespace).reverse)

/-- JavaScript `s.split("\x7b")[0]`: the prefix before the first opening brace. -/
def upToBrace (s : String) : String := String.mk (s.data.takeWhile (fun c => c ≠ '\x7b'))

/-- JavaScript `s.split("\n")[0]`: the first line. -/
def headLine (s : String) : String := String.mk (s.data.takeWhile (fun c => c ≠ '\n'))

/-- The `.replace(/\\/g, "/")` normalization used throughout the engine. -/
def replaceBackslashes (s : String) : String :=
  String.mk (s.data.map (fun c => if c = '\\' then '/' else c))

/-- JavaScript `Array.prototype.join("\n")` after a filter, as used for doc
comments: `getJsDocs().map(getCommentText).filter(Boolean).join("\n")`. -/
def joinNewline : List String → String
  | [] => ""
  | [s] => s
  | s :: rest => s ++ "\n" ++ joinNewline rest

/-- The doc-comment extraction `.map(d => d.getCommentText()).filter(Boolean).join("\n")`:
absent comment texts and empty strings are falsy and dropped. -/
def joinDocs (docs : List (Option String)) : String :=
  joinNewline ((docs.filterMap id).filter (fun s => s ≠ ""))

/-! ## Node.js path helpers (forward-slash paths)

Modelled from the Node `path` module for the POSIX-style forward-slash
paths the engine works with (all paths are normalized with
`replaceBackslashes` before or right after these helpers run in the
source). -/

/-- Modelled from Node `path.dirname` for forward-slash paths without a
trailing slash: everything before the last `/`, `"."` if there is no
slash, `"/"` if the slash is leading. -/
def dirname (p : String) : String :=
  if '/' ∈ p.data.reverse then
    if (p.data.reverse.dropWhile (fun c => c ≠ '/')).tail = [] then "/"
    else String.mk ((p.data.reverse.dropWhile (fun c => c ≠ '/')).tail).reverse
  else "."

/-- Modelled from Node `path.basename` for forward-slash paths without a
trailing slash: everything after the last `/`. -/
def basename (p : String) : String :=
  String.mk ((p.data.reverse.takeWhile (fun c => c ≠ '/')).reverse)

/-- Modelled from Node `path.extname`: the suffix of the basename from its
last `.`, empty when there is no dot or when the only dot is the leading
character (dotfiles). -/
def extname (p : String) : String :=
  if ((basename p).data.reverse.takeWhile (fun c => c ≠ '.')).length + 1 < (basename p).data.length
  then String.mk ('.' :: ((basename p).data.reverse.takeWhile (fun c => c ≠ '.')).reverse)
  else ""

/-- Modelled from Node `path.relative(root, p)` for the two regimes the
engine distinguishes: a path under `root` yields the root-relative
remainder, and any other path yields a path starting with `".."` (the
engine only ever tests such results with `startsWith("..")`). -/
def pathRelative (root p : String) : String :=
  if strStartsWith p (root ++ "/") then strDropChars p (root.length + 1) else "../" ++ p

/-! ## JavaScript Map model

An association list with JavaScript `Map` semantics: iteration follows
insertion order, and `set` on an existing key replaces the value in place
(keeping the original position). -/

structure JsMap (α : Type) where
  entries : List (String × α)
deriving DecidableEq, Repr

def JsMap.empty {α : Type} : JsMap α := ⟨[]⟩

def JsMap.get? {α : Type} (m : JsMap α) (k : String) : Option α :=
  (m.entries.find? (fun e => e.1 == k)).map (fun e => e.2)

def JsMap.has {α : Type} (m : JsMap α) (k : String) : Bool :=
  m.entries.any (fun e => e.1 == k)

def JsMap.set {α : Type} (m : JsMap α) (k : String) (v : α) : JsMap α :=
  ⟨if m.has k then m.entries.map (fun e => if e.1 == k then (k, v) else e)
    else m.entries ++ [(k, v)]⟩

def JsMap.values {α : Type} (m : JsMap α) : List α := m.entries.map (fun e => e.2)

def JsMap.keysList {α : Type} (m : JsMap α) : List String := m.entries.map (fun e => e.1)

/-! ## Data model (src/src/lib/analyzer/types.ts) -/

inductive NodeType
  | folder
  | file
  | function
  | «class»
  | component
deriving DecidableEq, Repr

inductive RelationType
  | imports
  | calls
  | «extends»
  | renders
  | contains
deriving DecidableEq, Repr

structure ProjectNode where
  id : String
  name : String
  type : NodeType
  path : String
  line : Option Nat
  parentId : Option String
  content : Option String
  signature : Option String
  docComment : Option String
deriving DecidableEq, Repr

/-- An edge as returned by the engine.  The accumulator type in the source
is `ProjectEdge & { callCount: number }`, and the returned edges are the
accumulator values themselves, so `callCount` is modelled as the optional
field of the declared interface and the engine always populates it. -/
structure ProjectEdge where
  «from» : String
  «to» : String
  relation : RelationType
  callCount : Option Nat
deriving DecidableEq, Repr

structure ProjectGraph where
  nodes : List ProjectNode
  edges : List ProjectEdge
  rootPath : String
deriving DecidableEq, Repr

/-! ## Abstracted ts-morph syntax-tree data

Each source file is abstracted into exactly the observations the engine
makes of it through ts-morph. -/

structure FunctionDecl where
  name : Option String
  line : Nat
  text : String
  jsDocs : List (Option String)
deriving DecidableEq, Repr

inductive InitKind
  | arrowFunction
  | functionExpression
  | otherKind
deriving DecidableEq, Repr

structure VariableDecl where
  name : String
  line : Nat
  initKind : Option InitKind
  initText : String
deriving DecidableEq, Repr

structure MethodDecl where
  name : String
  line : Nat
  text : String
  jsDocs : List (Option String)
deriving DecidableEq, Repr

structure ClassDecl where
  name : Option String
  line : Nat
  text : String
  jsDocs : List (Option String)
  methods : List MethodDecl
deriving DecidableEq, Repr

structure ImportDecl where
  resolvedPath : Option String
deriving DecidableEq, Repr

/-- The shape of a call expression's target. -/
inductive CalleeForm
  | identifier (name : String)
  | propertyAccess (obj prop : String)
  | otherForm
deriving DecidableEq, Repr

/-- One step of the `getParent()` chain above a call expression, as
inspected by `_findContainingFunctionId` (the call expression itself has
kind CallExpression and matches none of the cases, so the chain starts at
its parent). -/
inductive AncestorKind
  | functionDecl (name : Option String)
  | methodDecl (parentIsClassDecl : Bool) (clsName : Option String) (methodName : String)
  | variableDecl (name : Option String)
  | otherNode
deriving DecidableEq, Repr

/-- A call expression: its target shape, its ancestor chain (innermost
first), and the result of ts-morph symbol resolution on the target
(`symbol name`, declaration source-file paths), when a symbol exists. -/
structure CallExpr where
  callee : CalleeForm
  ancestors : List AncestorKind
  symbolInfo : Option (String × List String)
deriving DecidableEq, Repr

structure SourceFile where
  absPath : String
  fullText : String
  imports : List ImportDecl
  functions : List FunctionDecl
  «variables» : List VariableDecl
  classes : List ClassDecl
  calls : List CallExpr
deriving DecidableEq, Repr

structure AnalyzeInput where
  rootPath : String
  files : List SourceFile
deriving DecidableEq, Repr

/-! ## Edge accumulation (the `addEdge` closure, engine.ts lines 49-61) -/

def relationKeyPart : RelationType → String
  | .imports => "imports"
  | .calls => "calls"
  | .«extends» => "extends"
  | .renders => "renders"
  | .contains => "contains"

/-- The dedup key `` `${from}→${to}→${relation}` ``. -/
def edgeKey (f t : String) (r : RelationType) : String :=
  f ++ "→" ++ t ++ "→" ++ relationKeyPart r

/-- JavaScript `e.callCount || 1` (undefined and 0 are falsy). -/
def jsOrOne : Option Nat → Nat
  | some c => if c = 0 then 1 else c
  | none => 1

/-- The `addEdge` closure: dedup by key; on a repeated key bump `callCount`
only for `calls`; otherwise insert with `callCount: 1`. -/
def addEdge (m : JsMap ProjectEdge) (f t : String) (r : RelationType) : JsMap ProjectEdge :=
  let key := edgeKey f t r
  match m.get? key with
  | some e =>
    if r = .calls then m.set key { e with callCount := some (jsOrOne e.callCount + 1) } else m
  | none => m.set key { «from» := f, «to» := t, relation := r, callCount := some 1 }

/-- One recorded `addEdge(from, to, relation)` invocation. -/
structure Obs where
  f : String
  t : String
  r : RelationType
deriving DecidableEq, Repr

/-- Replay a list of `addEdge` invocations in order. -/
def applyObs (m : JsMap ProjectEdge) (l : List Obs) : JsMap ProjectEdge :=
  l.foldl (fun m o => addEdge m o.f o.t o.r) m

/-! ## Engine state -/

/-- The mutable state of one `analyze()` run: `nodesMap`, `fnRegistry`,
the folder seen-set, and the ordered list of `addEdge` invocations. -/
structure EngineState where
  nodesMap : JsMap ProjectNode
  fnRegistry : JsMap String
  folderPaths : List String
  obs : List Obs
deriving Repr

/-- Record an `addEdge` invocation. -/
def emit (st : EngineState) (f t : String) (r : RelationType) : EngineState :=
  { st with obs := st.obs ++ [⟨f, t, r⟩] }

/-! ## Folder hierarchy builder (`_addFolderNodes`, engine.ts lines 307-330) -/

def folderNode (d : String) : ProjectNode :=
  { id := "folder:" ++ d, name := basename d, type := .folder, path := d,
    line := none, parentId := none, content := none, signature := none, docComment := none }

/-- One iteration of the `while` body of `_addFolderNodes`. -/
def addFolderStep (st : EngineState) (currentDir : String) : EngineState :=
  if st.folderPaths.contains currentDir then st
  else
    let st1 : EngineState :=
      { st with folderPaths := currentDir :: st.folderPaths,
                nodesMap := st.nodesMap.set ("folder:" ++ currentDir) (folderNode currentDir) }
    let parentDir := replaceBackslashes (dirname currentDir)
    if parentDir ≠ "." ∧ parentDir ≠ "" then
      emit st1 ("folder:" ++ parentDir) ("folder:" ++ currentDir) .contains
    else st1

/-- The `while (currentDir !== "." && currentDir !== "" && currentDir !== "/")`
loop.  The loop always terminates because `dirname` strictly shortens any
string containing a slash and maps slash-free strings to `"."`; the fuel
`relativePath.length + 2` given below therefore always suffices and the
zero-fuel branch is unreachable. -/
def addFolderNodesLoop : Nat → String → EngineState → EngineState
  | 0, _, st => st
  | fuel + 1, currentDir, st =>
    if currentDir = "." ∨ currentDir = "" ∨ currentDir = "/" then st
    else addFolderNodesLoop fuel (replaceBackslashes (dirname currentDir)) (addFolderStep st currentDir)

def addFolderNodes (relativePath : String) (st : EngineState) : EngineState :=
  addFolderNodesLoop (relativePath.length + 2) (replaceBackslashes (dirname relativePath)) st

/-! ## Pass 1 (engine.ts lines 119-258 and `_registerFunction`) -/

/-- `_registerFunction` (engine.ts lines 332-359). -/
def registerFunction (fileNodeId relativePath : String) (st : EngineState)
    (idx : Nat) (fn : FunctionDecl) : EngineState :=
  let name :=
    match fn.name with
    | some n => if n = "" then "anonymous_" ++ toString idx else n
    | none => "anonymous_" ++ toString idx
  let fnId := fileNodeId ++ ":fn:" ++ name
  let node : ProjectNode :=
    { id := fnId, name := name, type := .function, path := relativePath,
      line := some fn.line, parentId := some fileNodeId,
      content := some (strTake fn.text 3000),
      signature := some (strTrim (upToBrace fn.text)),
      docComment := some (joinDocs fn.jsDocs) }
  let st1 : EngineState :=
    { st with fnRegistry := st.fnRegistry.set name fnId,
              nodesMap := st.nodesMap.set fnId node }
  emit st1 fileNodeId fnId .contains

/-- The variable-declaration branch of pass 1 (engine.ts lines 189-213):
only function/arrow initializers produce a node, and only when no node
with that id exists yet. -/
def processVariable (fileNodeId relativePath : String) (st : EngineState)
    (v : VariableDecl) : EngineState :=
  match v.initKind with
  | none => st
  | some k =>
    if k = .arrowFunction ∨ k = .functionExpression then
      let name := v.name
      let fnId := fileNodeId ++ ":fn:" ++ name
      if st.nodesMap.has fnId then st
      else
        let node : ProjectNode :=
          { id := fnId, name := name, type := .function, path := relativePath,
            line := some v.line, parentId := some fileNodeId,
            content := some (strTake v.initText 3000),
            signature := some ("const " ++ name ++ " = " ++ headLine v.initText),
            docComment := none }
        let st1 : EngineState :=
          { st with fnRegistry := st.fnRegistry.set name fnId,
                    nodesMap := st.nodesMap.set fnId node }
        emit st1 fileNodeId fnId .contains
    else st

/-- The per-method body of the class branch (engine.ts lines 236-256). -/
def processMethod (clsId relativePath clsName : String) (st : EngineState)
    (method : MethodDecl) : EngineState :=
  let methodName := method.name
  let methodId := clsId ++ ":method:" ++ methodName
  let node : ProjectNode :=
    { id := methodId, name := methodName, type := .function, path := relativePath,
      line := some method.line, parentId := some clsId,
      content := some (strTake method.text 3000),
      signature := some (strTrim (upToBrace method.text)),
      docComment := some (joinDocs method.jsDocs) }
  let st1 : EngineState :=
    { st with fnRegistry := st.fnRegistry.set (clsName ++ "." ++ methodName) methodId,
              nodesMap := st.nodesMap.set methodId node }
  emit st1 clsId methodId .contains

/-- The class branch of pass 1 (engine.ts lines 215-257). -/
def processClass (fileNodeId relativePath : String) (st : EngineState)
    (p : Nat × ClassDecl) : EngineState :=
  let idx := p.1
  let cls := p.2
  let name :=
    match cls.name with
    | some n => if n = "" then "AnonymousClass_" ++ toString idx else n
    | none => "AnonymousClass_" ++ toString idx
  let clsId := fileNodeId ++ ":cls:" ++ name
  let node : ProjectNode :=
    { id := clsId, name := name, type := .«class», path := relativePath,
      line := some cls.line, parentId := some fileNodeId,
      content := some (strTake cls.text 3000),
      signature := none,
      docComment := some (joinDocs cls.jsDocs) }
  let st1 : EngineState :=
    { st with fnRegistry := st.fnRegistry.set name clsId,
              nodesMap := st.nodesMap.set clsId node }
  let st2 := emit st1 fileNodeId clsId .contains
  cls.methods.foldl (processMethod clsId relativePath name) st2

/-- The import-edge branch of pass 1 (engine.ts lines 163-174). -/
def processImport (rootPath fileNodeId : String) (st : EngineState)
    (imp : ImportDecl) : EngineState :=
  match imp.resolvedPath with
  | none => st
  | some rp =>
    let targetPath := replaceBackslashes (pathRelative rootPath rp)
    if strContainsSub targetPath "node_modules" then st
    else emit st fileNodeId ("file:" ++ targetPath) .imports

/-- Pass-1 processing of one source file (engine.ts lines 123-258). -/
def processFilePass1 (rootPath : String) (st : EngineState) (sf : SourceFile) : EngineState :=
  let filePath := sf.absPath
  let relativePath := replaceBackslashes (pathRelative rootPath filePath)
  if strStartsWith relativePath ".." ∨ strContainsSub relativePath "node_modules" then st
  else
    let st1 := addFolderNodes relativePath st
    let fileNodeId := "file:" ++ relativePath
    let parentDir := replaceBackslashes (dirname relativePath)
    let fileEntry : ProjectNode :=
      { id := fileNodeId, name := basename filePath, type := .file, path := relativePath,
        line := none,
        parentId := if parentDir = "." then none else some ("folder:" ++ parentDir),
        content := some (strTake sf.fullText 8000),
        signature := none, docComment := none }
    let st2 : EngineState :=
      { st1 with nodesMap := st1.nodesMap.set fileNodeId fileEntry }
    let st3 := if parentDir ≠ "." then emit st2 ("folder:" ++ parentDir) fileNodeId .contains else st2
    let st4 := sf.imports.foldl (processImport rootPath fileNodeId) st3
    let st5 := (sf.functions.enum).foldl
      (fun st p => registerFunction fileNodeId relativePath st p.1 p.2) st4
    let st6 := sf.«variables».foldl (processVariable fileNodeId relativePath) st5
    (sf.classes.enum).foldl (processClass fileNodeId relativePath) st6

/-! ## Pass 2 (engine.ts lines 266-290, `_traceCallEdges`,
`_findContainingFunctionId`) -/

/-- JavaScript template interpolation `` `${x}` `` of a possibly-undefined
string. -/
def jsInterpolate : Option String → String
  | some s => s
  | none => "undefined"

/-- One step of `_findContainingFunctionId` (engine.ts lines 443-473): the
candidate id contributed by a single ancestor node, `none` when the
ancestor's kind matches no case, its name is falsy, or the candidate id is
not in the node map. -/
def findAncestorId (fid : String) (nodesMap : JsMap ProjectNode) : AncestorKind → Option String
  | .functionDecl (some name) =>
    if name ≠ "" ∧ nodesMap.has (fid ++ ":fn:" ++ name) then some (fid ++ ":fn:" ++ name)
    else none
  | .functionDecl none => none
  | .methodDecl true clsName methodName =>
    if nodesMap.has (fid ++ ":cls:" ++ jsInterpolate clsName ++ ":method:" ++ methodName) then
      some (fid ++ ":cls:" ++ jsInterpolate clsName ++ ":method:" ++ methodName)
    else none
  | .methodDecl false _ _ => none
  | .variableDecl (some name) =>
    if name ≠ "" ∧ nodesMap.has (fid ++ ":fn:" ++ name) then some (fid ++ ":fn:" ++ name)
    else none
  | .variableDecl none => none
  | .otherNode => none

/-- `_findContainingFunctionId` (engine.ts lines 435-478): walk the
ancestor chain upward and return the first enclosing callable whose node
exists in the node map. -/
def findContainingFunctionId (fileNodeId : String) (nodesMap : JsMap ProjectNode) :
    List AncestorKind → Option String
  | [] => none
  | a :: rest =>
    match findAncestorId fileNodeId nodesMap a with
    | some cid => some cid
    | none => findContainingFunctionId fileNodeId nodesMap rest

/-- The tier-2 fallback of `_traceCallEdges` (engine.ts lines 405-431):
ts-morph symbol resolution; per declaration site, probe the `fn:` and
`cls:` candidate ids and take the first that exists and is not the caller
(the `break` leaves only the inner candidate loop). -/
def tier2Resolve (rootPath : String) (nodesMap : JsMap ProjectNode) (callerFnId : String)
    (st : EngineState) : Option (String × List String) → EngineState
  | none => st
  | some (symName, declPaths) =>
    declPaths.foldl (fun st dp =>
      let targetRel := replaceBackslashes (pathRelative rootPath dp)
      if strContainsSub targetRel "node_modules" then st
      else
        let targetFileId := "file:" ++ targetRel
        let candidates := [targetFileId ++ ":fn:" ++ symName, targetFileId ++ ":cls:" ++ symName]
        match candidates.find? (fun c => nodesMap.has c && c != callerFnId) with
        | some c => emit st callerFnId c .calls
        | none => st) st

/-- Processing of one call expression (`_traceCallEdges` body, engine.ts
lines 370-432). -/
def processCall (rootPath fileNodeId : String) (nodesMap : JsMap ProjectNode)
    (reg : JsMap String) (st : EngineState) (ce : CallExpr) : EngineState :=
  match findContainingFunctionId fileNodeId nodesMap ce.ancestors with
  | none => st
  | some callerFnId =>
    let calledNameOpt : Option String :=
      match ce.callee with
      | .identifier n => some n
      | .propertyAccess obj prop =>
        some (if reg.has (obj ++ "." ++ prop) then obj ++ "." ++ prop else prop)
      | .otherForm => none
    match calledNameOpt with
    | none => st
    | some calledName =>
      if calledName = "" then st
      else
        match reg.get? calledName with
        | some targetId =>
          if targetId ≠ "" ∧ targetId ≠ callerFnId ∧ nodesMap.has targetId then
            emit st callerFnId targetId .calls
          else tier2Resolve rootPath nodesMap callerFnId st ce.symbolInfo
        | none => tier2Resolve rootPath nodesMap callerFnId st ce.symbolInfo

/-- Pass-2 processing of one source file (engine.ts lines 268-290,
361-433). -/
def processFilePass2 (rootPath : String) (nodesMap : JsMap ProjectNode) (reg : JsMap String)
    (st : EngineState) (sf : SourceFile) : EngineState :=
  let relativePath := replaceBackslashes (pathRelative rootPath sf.absPath)
  if strStartsWith relativePath ".." ∨ strContainsSub relativePath "node_modules" then st
  else
    let fileNodeId := "file:" ++ relativePath
    sf.calls.foldl (processCall rootPath fileNodeId nodesMap reg) st

/-! ## Source set filter (engine.ts lines 71-110) -/

def BINARY_EXTENSIONS : List String :=
  [".png", ".jpg", ".jpeg", ".gif", ".webp", ".svg", ".ico", ".avif",
   ".mp4", ".webm", ".mov", ".avi", ".mkv", ".mp3", ".wav", ".ogg",
   ".woff", ".woff2", ".ttf", ".eot", ".otf",
   ".pdf", ".zip", ".tar", ".gz", ".7z",
   ".lock", ".bin", ".exe", ".dll", ".so",
   ".map", ".min.js", ".min.css"]

def ignoredPathSegments : List String :=
  ["/node_modules/", "/dist/", "/build/", "/.next/", "/out/", "/coverage/", "/vendor/", "/.git/"]

/-- The `addSourceFilesAtPaths` globs `` `${normalizedRoot}/**/*.ts` `` (and
`.tsx`, `.js`, `.jsx`): paths under the normalized root with a matching
suffix. -/
def matchesSourceGlob (normalizedRoot p : String) : Bool :=
  strStartsWith p (normalizedRoot ++ "/") &&
    (strEndsWith p ".ts" || strEndsWith p ".tsx" || strEndsWith p ".js" || strEndsWith p ".jsx")

/-- The removal test of engine.ts lines 100-110 on the normalized path. -/
def isIgnoredFile (p : String) : Bool :=
  let ext := strToLower (extname p)
  ignoredPathSegments.any (fun ig => strContainsSub p ig) || BINARY_EXTENSIONS.contains ext
    || strEndsWith p ".min.js" || strEndsWith p ".min.css"

/-- A file survives into `this.project.getSourceFiles()` iff it matched the
add-time globs and was not removed by the ignore filter. -/
def sourceFileKept (normalizedRoot p : String) : Bool :=
  matchesSourceGlob normalizedRoot p && !(isIgnoredFile p)

def keptFiles (inp : AnalyzeInput) : List SourceFile :=
  inp.files.filter
    (fun sf => sourceFileKept (replaceBackslashes inp.rootPath) (replaceBackslashes sf.absPath))

/-! ## The whole `analyze()` run -/

def initialState : EngineState := ⟨JsMap.empty, JsMap.empty, [], []⟩

def pass1State (inp : AnalyzeInput) : EngineState :=
  (keptFiles inp).foldl (processFilePass1 inp.rootPath) initialState

def pass2State (inp : AnalyzeInput) : EngineState :=
  (keptFiles inp).foldl
    (fun st sf =>
      processFilePass2 inp.rootPath (pass1State inp).nodesMap (pass1State inp).fnRegistry st sf)
    (pass1State inp)

/-- Graph assembly (engine.ts lines 298-304): materialize nodes, compute
live ids, and drop edges with a dead endpoint. -/
def assembleGraph (st : EngineState) (rootPath : String) : ProjectGraph :=
  let edgesMap := applyObs JsMap.empty st.obs
  let nodes := st.nodesMap.values
  let nodeIds := nodes.map (fun n => n.id)
  let validEdges := edgesMap.values.filter
    (fun e => nodeIds.contains e.«from» && nodeIds.contains e.«to»)
  ⟨nodes, validEdges, rootPath⟩

def analyze (inp : AnalyzeInput) : ProjectGraph :=
  assembleGraph (pass2State inp) inp.rootPath

/-! ## The POST handler's empty-result gate (src/unnamed/part_003) -/

inductive StreamOutcome
  | errorEvent (message : String)
  | completed (g : ProjectGraph)
deriving DecidableEq, Repr

def noSourceFilesMessage : String :=
  "No source files found. Make sure the repo contains .ts/.tsx/.js/.jsx files."

/-- The caller-visible gate right after `analyzer.analyze()` in the POST
handler: an empty node set is surfaced as a terminal error event and the
handler returns without persisting; otherwise the run proceeds with the
graph. -/
def postAnalysisGate (analysis : ProjectGraph) : StreamOutcome :=
  if analysis.nodes.length = 0 then .errorEvent noSourceFilesMessage
  else .completed analysis

/-! ## Generic fold helpers -/

theorem foldl_preserves_of_mem {α β : Type _} {P : β → Prop} {l : List α} (f : β → α → β)
    (h : ∀ b a, a ∈ l → P b → P (f b a)) : ∀ b, P b → P (l.foldl f b) := by
  induction l with
  | nil => intro b hb; simpa using hb
  | cons x xs ih =>
    intro b hb
    simp only [List.foldl_cons]
    exact ih (fun b a ha hb => h b a (List.mem_cons_of_mem x ha) hb) (f b x)
      (h b x (List.mem_cons_self x xs) hb)

theorem foldl_preserves {α β : Type _} {P : β → Prop} (f : β → α → β)
    (h : ∀ b a, P b → P (f b a)) (l : List α) (b : β) (hb : P b) : P (l.foldl f b) :=
  foldl_preserves_of_mem f (fun b a _ hb => h b a hb) b hb

theorem foldl_preserves_of_mem_p {α β : Type _} (P : β → Prop) {l : List α} (f : β → α → β)
    (h : ∀ b a, a ∈ l → P b → P (f b a)) (b : β) (hb : P b) : P (l.foldl f b) :=
  foldl_preserves_of_mem f h b hb

theorem foldl_preserves_p {α β : Type _} (P : β → Prop) (f : β → α → β)
    (h : ∀ b a, P b → P (f b a)) (l : List α) (b : β) (hb : P b) : P (l.foldl f b) :=
  foldl_preserves f h l b hb

theorem mem_enum_snd {α : Type _} {l : List α} {p : Nat × α} (h : p ∈ l.enum) : p.2 ∈ l := by
  obtain ⟨i, x⟩ := p
  obtain ⟨-, hlt, heq⟩ := List.mem_enumFrom h
  rw [heq]
  exact List.getElem_mem _

/-! ## JsMap lemmas -/

def JsMap.KeysNodup {α : Type} (m : JsMap α) : Prop := (m.entries.map Prod.fst).Nodup

theorem JsMap.mem_entries_set {α : Type} {m : JsMap α} {k : String} {v : α} {e : String × α}
    (h : e ∈ (m.set k v).entries) : e ∈ m.entries ∨ e = (k, v) := by
  unfold JsMap.set at h
  simp only at h
  split at h
  · simp only [List.mem_map] at h
    obtain ⟨e', he', heq⟩ := h
    by_cases hek : (e'.1 == k) = true
    · right; rw [if_pos hek] at heq; exact heq.symm
    · left; rw [if_neg hek] at heq; rw [← heq]; exact he'
  · simp only [List.mem_append, List.mem_singleton] at h
    exact h

theorem find?_eq_none_of_any_false {α : Type _} {p : α → Bool} {l : List α}
    (h : l.any p = false) : l.find? p = none := by
  rw [List.find?_eq_none]
  intro x hx
  have := List.any_eq_false.mp h x hx
  simpa using this

theorem list_find?_append {α : Type _} {p : α → Bool} (l₁ l₂ : List α) :
    (l₁ ++ l₂).find? p = (l₁.find? p).or (l₂.find? p) := by
  induction l₁ with
  | nil => simp
  | cons x xs ih =>
    by_cases hx : p x = true
    · rw [List.cons_append, List.find?_cons_of_pos _ hx, List.find?_cons_of_pos _ hx]
      rfl
    · rw [List.cons_append, List.find?_cons_of_neg _ hx, List.find?_cons_of_neg _ hx]
      exact ih

theorem find?_map_update {α : Type} (k : String) (v : α) (l : List (String × α)) :
    (l.map (fun e => if e.1 == k then (k, v) else e)).find? (fun e => e.1 == k)
      = if l.any (fun e => e.1 == k) then some (k, v) else none := by
  induction l with
  | nil => simp
  | cons e es ih =>
    by_cases he : (e.1 == k) = true
    · rw [List.map_cons, if_pos he]
      rw [@List.find?_cons_of_pos _ (fun e => e.1 == k) (k, v)
        (es.map (fun e => if e.1 == k then (k, v) else e)) (by simp)]
      rw [if_pos (by simp [List.any_cons, he])]
    · rw [List.map_cons, if_neg he]
      rw [@List.find?_cons_of_neg _ (fun e => e.1 == k) e
        (es.map (fun e => if e.1 == k then (k, v) else e)) he]
      have hef : (e.1 == k) = false := by
        cases hbe : (e.1 == k)
        · rfl
        · exact absurd hbe he
      rw [List.any_cons, hef, Bool.false_or]
      exact ih

theorem find?_map_update_ne {α : Type} {k k' : String} (hne : k' ≠ k) (v : α)
    (l : List (String × α)) :
    (l.map (fun e => if e.1 == k then (k, v) else e)).find? (fun e => e.1 == k')
      = l.find? (fun e => e.1 == k') := by
  induction l with
  | nil => simp
  | cons e es ih =>
    by_cases he : (e.1 == k) = true
    · have hek : e.1 = k := by simpa [beq_iff_eq] using he
      have h1 : ¬ (((k, v) : String × α).1 == k') = true := by
        intro hh
        exact hne (beq_iff_eq.mp hh).symm
      have h2 : ¬ (e.1 == k') = true := by
        intro hh
        have hkk : k = k' := by rw [← hek]; exact beq_iff_eq.mp hh
        exact hne hkk.symm
      rw [List.map_cons, if_pos he,
        @List.find?_cons_of_neg _ (fun e => e.1 == k') (k, v)
          (es.map (fun e => if e.1 == k then (k, v) else e)) h1,
        @List.find?_cons_of_neg _ (fun e => e.1 == k') e es h2]
      exact ih
    · rw [List.map_cons, if_neg he]
      by_cases h2 : (e.1 == k') = true
      · rw [@List.find?_cons_of_pos _ (fun e => e.1 == k') e
          (es.map (fun e => if e.1 == k then (k, v) else e)) h2,
          @List.find?_cons_of_pos _ (fun e => e.1 == k') e es h2]
      · rw [@List.find?_cons_of_neg _ (fun e => e.1 == k') e
          (es.map (fun e => if e.1 == k then (k, v) else e)) h2,
          @List.find?_cons_of_neg _ (fun e => e.1 == k') e es h2]
        exact ih

theorem JsMap.get?_eq_none_of_not_has {α : Type} {m : JsMap α} {k : String}
    (h : m.has k = false) : m.get? k = none := by
  unfold JsMap.get?
  rw [find?_eq_none_of_any_false h]
  rfl

theorem JsMap.get?_set_self {α : Type} (m : JsMap α) (k : String) (v : α) :
    (m.set k v).get? k = some v := by
  unfold JsMap.set JsMap.get?
  simp only
  by_cases h : m.has k = true
  · rw [if_pos h, find?_map_update]
    unfold JsMap.has at h
    rw [if_pos h]
    rfl
  · rw [if_neg h]
    have hb : m.has k = false := by
      cases hbb : m.has k
      · rfl
      · exact absurd hbb h
    have hn : m.entries.find? (fun e => e.1 == k) = none :=
      find?_eq_none_of_any_false hb
    rw [list_find?_append, hn]
    rw [@List.find?_cons_of_pos _ (fun e => e.1 == k) (k, v) [] (by simp)]
    rfl

theorem JsMap.get?_set_ne {α : Type} (m : JsMap α) {k k' : String} (v : α) (hne : k' ≠ k) :
    (m.set k v).get? k' = m.get? k' := by
  unfold JsMap.set JsMap.get?
  simp only
  by_cases h : m.has k = true
  · rw [if_pos h, find?_map_update_ne hne]
  · rw [if_neg h, list_find?_append]
    have : ([(k, v)].find? (fun e => e.1 == k')) = none := by
      rw [@List.find?_cons_of_neg _ (fun e => e.1 == k') (k, v) []
        (fun hh => hne (beq_iff_eq.mp hh).symm)]
      rfl
    rw [this, Option.or_none]

theorem JsMap.get?_mem_entries {α : Type} {m : JsMap α} {k : String} {v : α}
    (h : m.get? k = some v) : (k, v) ∈ m.entries := by
  unfold JsMap.get? at h
  cases hf : m.entries.find? (fun e => e.1 == k) with
  | none => rw [hf] at h; simp at h
  | some e =>
    rw [hf] at h
    have hm := List.mem_of_find?_eq_some hf
    have hp := List.find?_some hf
    have h1 : e.1 = k := by simpa [beq_iff_eq] using hp
    have h2 : e.2 = v := by simpa using h
    have : e = (k, v) := by
      cases e
      simp only at h1 h2
      rw [h1, h2]
    rwa [← this]

theorem JsMap.has_of_get?_eq_some {α : Type} {m : JsMap α} {k : String} {v : α}
    (h : m.get? k = some v) : m.has k = true := by
  by_cases hh : m.has k = true
  · exact hh
  · rw [JsMap.get?_eq_none_of_not_has (by simpa using hh)] at h
    simp at h

theorem JsMap.get?_isSome_of_has {α : Type} {m : JsMap α} {k : String}
    (h : m.has k = true) : ∃ v, m.get? k = some v := by
  unfold JsMap.has at h
  rw [List.any_eq_true] at h
  obtain ⟨e, he, hp⟩ := h
  unfold JsMap.get?
  cases hf : m.entries.find? (fun e => e.1 == k) with
  | none =>
    rw [List.find?_eq_none] at hf
    exact absurd hp (hf e he)
  | some e' => exact ⟨e'.2, rfl⟩

theorem JsMap.has_set_self {α : Type} (m : JsMap α) (k : String) (v : α) :
    (m.set k v).has k = true :=
  JsMap.has_of_get?_eq_some (JsMap.get?_set_self m k v)

theorem JsMap.has_set_of_has {α : Type} {m : JsMap α} {k' : String} (h : m.has k' = true)
    (k : String) (v : α) : (m.set k v).has k' = true := by
  by_cases hk : k' = k
  · rw [hk]; exact JsMap.has_set_self m k v
  · obtain ⟨w, hw⟩ := JsMap.get?_isSome_of_has h
    exact JsMap.has_of_get?_eq_some
      (show (m.set k v).get? k' = some w by rw [JsMap.get?_set_ne m v hk]; exact hw)

theorem assoc_find?_of_mem {α : Type _} {l : List (String × α)} (hnd : (l.map Prod.fst).Nodup)
    {k : String} {v : α} (h : (k, v) ∈ l) : l.find? (fun e => e.1 == k) = some (k, v) := by
  induction l with
  | nil => simp at h
  | cons e es ih =>
    rcases List.mem_cons.mp h with he | he
    · rw [← he]
      exact @List.find?_cons_of_pos _ (fun e => e.1 == k) (k, v) es (by simp)
    · have hnd2 : (e.1 :: es.map Prod.fst).Nodup := by
        rw [List.map_cons] at hnd
        exact hnd
      have hnd' := List.nodup_cons.mp hnd2
      have hk : e.1 ≠ k := by
        intro hek
        apply hnd'.1
        rw [hek]
        exact List.mem_map_of_mem Prod.fst he
      rw [@List.find?_cons_of_neg _ (fun e => e.1 == k) e es
        (by simpa [beq_iff_eq] using hk)]
      exact ih hnd'.2 he

theorem JsMap.get?_of_mem_entries {α : Type} {m : JsMap α} (hnd : m.KeysNodup) {k : String}
    {v : α} (h : (k, v) ∈ m.entries) : m.get? k = some v := by
  unfold JsMap.get?
  rw [assoc_find?_of_mem hnd h]
  rfl

theorem JsMap.keysNodup_set {α : Type} {m : JsMap α} (hnd : m.KeysNodup) (k : String) (v : α) :
    (m.set k v).KeysNodup := by
  unfold JsMap.KeysNodup JsMap.set
  simp only
  split
  · have hmc : m.entries.map (Prod.fst ∘ fun e => if e.1 == k then (k, v) else e)
        = m.entries.map Prod.fst := by
      apply List.map_congr_left
      intro e _
      by_cases hek : (e.1 == k) = true
      · simp only [Function.comp_apply, if_pos hek]
        exact (beq_iff_eq.mp hek).symm
      · simp only [Function.comp_apply, if_neg hek]
    rw [List.map_map, hmc]
    exact hnd
  · rename_i hhas
    rw [List.map_append]
    simp only [List.map_cons, List.map_nil]
    apply List.Nodup.append hnd (List.nodup_singleton k)
    intro a ha hb
    simp only [List.mem_singleton] at hb
    obtain ⟨e, he, hek⟩ := List.mem_map.mp ha
    have hany : m.entries.any (fun x => x.1 == k) = true :=
      List.any_eq_true.mpr ⟨e, he, by rw [show e.1 = k from hek.trans hb]; simp⟩
    exact hhas (by unfold JsMap.has; exact hany)

theorem JsMap.keysNodup_empty {α : Type} : (JsMap.empty : JsMap α).KeysNodup := by
  unfold JsMap.KeysNodup JsMap.empty
  simp

/-! ## String facts -/

theorem strMk_data (l : List Char) : (String.mk l).data = l := rfl

theorem str_data_inj {a b : String} (h : a.data = b.data) : a = b := String.ext h

theorem strAppend_cancel_left {a b c : String} (h : a ++ b = a ++ c) : b = c := by
  apply String.ext
  have hd := congrArg String.data h
  rw [String.data_append, String.data_append] at hd
  exact List.append_cancel_left hd

/-- Splitting at a separator character absent from both left parts is
injective. -/
theorem append_sep_inj {sep : Char} {l₁ : List Char} :
    ∀ {l₂ r₁ r₂ : List Char}, sep ∉ l₁ → sep ∉ l₂ →
      l₁ ++ sep :: r₁ = l₂ ++ sep :: r₂ → l₁ = l₂ ∧ r₁ = r₂ := by
  induction l₁ with
  | nil =>
    intro l₂ r₁ r₂ h1 h2 heq
    cases l₂ with
    | nil =>
      rw [List.nil_append, List.nil_append] at heq
      injection heq with ha hb
      exact ⟨rfl, hb⟩
    | cons b bs =>
      rw [List.nil_append, List.cons_append] at heq
      injection heq with ha hb
      exact absurd (show sep ∈ b :: bs by rw [ha]; exact List.mem_cons_self b bs) h2
  | cons a as ih =>
    intro l₂ r₁ r₂ h1 h2 heq
    cases l₂ with
    | nil =>
      rw [List.nil_append, List.cons_append] at heq
      injection heq with ha hb
      exact absurd (show sep ∈ a :: as by rw [← ha]; exact List.mem_cons_self a as) h1
    | cons b bs =>
      rw [List.cons_append, List.cons_append] at heq
      injection heq with ha hb
      obtain ⟨hl, hr⟩ := ih (fun hm => h1 (List.mem_cons_of_mem a hm))
        (fun hm => h2 (List.mem_cons_of_mem b hm)) hb
      exact ⟨by rw [ha, hl], hr⟩

/-- Characters free of colon and arrow: the well-formedness condition on
input names and paths under which the engine's id grammar is injective. -/
def goodStr (s : String) : Prop := ':' ∉ s.data ∧ '→' ∉ s.data

/-- Bool-level well-formedness of one input string: no colon, no arrow
character, no backslash. -/
def okName (s : String) : Bool :=
  decide (':' ∉ s.data) && decide ('→' ∉ s.data) && decide ('\\' ∉ s.data)

theorem okName_spec {s : String} (h : okName s = true) :
    ':' ∉ s.data ∧ '→' ∉ s.data ∧ '\\' ∉ s.data := by
  unfold okName at h
  simp only [Bool.and_eq_true, decide_eq_true_eq] at h
  exact ⟨h.1.1, h.1.2, h.2⟩

theorem replaceBackslashes_mem {c : Char} {s : String} (hc : c ≠ '/')
    (h : c ∉ s.data) : c ∉ (replaceBackslashes s).data := by
  unfold replaceBackslashes
  rw [strMk_data]
  intro hm
  obtain ⟨a, ha, hae⟩ := List.mem_map.mp hm
  by_cases hab : a = '\\'
  · rw [if_pos hab] at hae
    exact hc hae.symm
  · rw [if_neg hab] at hae
    rw [← hae] at h
    exact h ha

theorem replaceBackslashes_eq_self {s : String} (h : '\\' ∉ s.data) :
    replaceBackslashes s = s := by
  unfold replaceBackslashes
  apply String.ext
  rw [strMk_data]
  have hcg : s.data.map (fun c => if c = '\\' then '/' else c) = s.data.map id := by
    apply List.map_congr_left
    intro a ha
    have hab : a ≠ '\\' := fun hh => h (hh ▸ ha)
    simp [hab]
  rw [hcg, List.map_id]

theorem pathRelative_mem {c : Char} {root p : String} (hc1 : c ≠ '.') (hc2 : c ≠ '/')
    (h : c ∉ p.data) : c ∉ (pathRelative root p).data := by
  unfold pathRelative
  split
  · unfold strDropChars
    rw [strMk_data]
    intro hm
    exact h (List.mem_of_mem_drop hm)
  · rw [String.data_append]
    intro hm
    rcases List.mem_append.mp hm with hm | hm
    · rw [(rfl : ("../").data = ['.', '.', '/'])] at hm
      simp only [List.mem_cons, List.not_mem_nil, or_false] at hm
      rcases hm with h' | h' | h'
      · exact hc1 h'
      · exact hc1 h'
      · exact hc2 h'
    · exact h hm

theorem dirname_mem {c : Char} {p : String} (hc1 : c ≠ '.') (hc2 : c ≠ '/')
    (h : c ∉ p.data) : c ∉ (dirname p).data := by
  unfold dirname
  split
  · split
    · rw [(rfl : ("/").data = ['/'])]
      intro hm
      simp only [List.mem_cons, List.not_mem_nil, or_false] at hm
      exact hc2 hm
    · rw [strMk_data]
      intro hm
      rw [List.mem_reverse] at hm
      have h1 : c ∈ p.data.reverse.dropWhile (fun c => c ≠ '/') := List.mem_of_mem_tail hm
      have h2 : c ∈ p.data.reverse := (List.dropWhile_suffix _).subset h1
      exact h (List.mem_reverse.mp h2)
  · rw [(rfl : (".").data = ['.'])]
    intro hm
    simp only [List.mem_cons, List.not_mem_nil, or_false] at hm
    exact hc1 hm

theorem strStartsWith_iff {s pre : String} : strStartsWith s pre = true ↔ pre.data <+: s.data := by
  unfold strStartsWith
  exact List.isPrefixOf_iff_prefix

theorem strEndsWith_iff {s suf : String} : strEndsWith s suf = true ↔ suf.data <:+ s.data := by
  unfold strEndsWith
  exact List.isSuffixOf_iff_suffix

theorem strContainsSub_iff {s pat : String} : strContainsSub s pat = true ↔ pat.data <:+: s.data := by
  unfold strContainsSub
  rw [decide_eq_true_eq]

/-! ## Id-grammar disambiguation

Literal data values used in the id grammar. -/

theorem data_file : ("file:").data = ['f', 'i', 'l', 'e', ':'] := rfl
theorem data_folder : ("folder:").data = ['f', 'o', 'l', 'd', 'e', 'r', ':'] := rfl
theorem data_fn : ((":fn:")).data = [':', 'f', 'n', ':'] := rfl
theorem data_cls : ((":cls:")).data = [':', 'c', 'l', 's', ':'] := rfl
theorem data_method : ((":method:")).data = [':', 'm', 'e', 't', 'h', 'o', 'd', ':'] := rfl

theorem folderId_ne_fileId (d x : String) : "folder:" ++ d ≠ "file:" ++ x := by
  intro h
  have hd := congrArg String.data h
  simp only [String.data_append, data_folder, data_file, List.cons_append, List.nil_append,
    List.cons.injEq] at hd
  exact absurd hd.2.1 (by decide)

theorem fileId_ne_fnId {p rel nm : String} (hp : ':' ∉ p.data) :
    "file:" ++ p ≠ "file:" ++ rel ++ ":fn:" ++ nm := by
  intro h
  have hd := congrArg String.data h
  simp only [String.data_append, List.append_assoc, data_file, data_fn, List.cons_append,
    List.nil_append, List.cons.injEq, true_and] at hd
  apply hp
  rw [hd]
  exact List.mem_append_right _ (List.mem_cons_self _ _)

theorem fileId_ne_clsId {p rel nm : String} (hp : ':' ∉ p.data) :
    "file:" ++ p ≠ "file:" ++ rel ++ ":cls:" ++ nm := by
  intro h
  have hd := congrArg String.data h
  simp only [String.data_append, List.append_assoc, data_file, data_cls, List.cons_append,
    List.nil_append, List.cons.injEq, true_and] at hd
  apply hp
  rw [hd]
  exact List.mem_append_right _ (List.mem_cons_self _ _)

theorem fileId_ne_methodId {p rel cn mn : String} (hp : ':' ∉ p.data) :
    "file:" ++ p ≠ "file:" ++ rel ++ ":cls:" ++ cn ++ ":method:" ++ mn := by
  intro h
  have hd := congrArg String.data h
  simp only [String.data_append, List.append_assoc, data_file, data_cls, data_method,
    List.cons_append, List.nil_append, List.cons.injEq, true_and] at hd
  apply hp
  rw [hd]
  exact List.mem_append_right _ (List.mem_cons_self _ _)

theorem clsId_ne_fnId {p cc rel nm : String} (hp : ':' ∉ p.data) (hrel : ':' ∉ rel.data) :
    "file:" ++ p ++ ":cls:" ++ cc ≠ "file:" ++ rel ++ ":fn:" ++ nm := by
  intro h
  have hd := congrArg String.data h
  simp only [String.data_append, List.append_assoc, data_file, data_cls, data_fn,
    List.cons_append, List.nil_append, List.cons.injEq, true_and] at hd
  obtain ⟨-, hr⟩ := append_sep_inj hp hrel hd
  injection hr with hcf hrest
  exact absurd hcf (by decide)

theorem clsId_ne_methodId {p cc rel cn mn : String} (hp : ':' ∉ p.data)
    (hrel : ':' ∉ rel.data) (hcc : ':' ∉ cc.data) :
    "file:" ++ p ++ ":cls:" ++ cc ≠ "file:" ++ rel ++ ":cls:" ++ cn ++ ":method:" ++ mn := by
  intro h
  have hd := congrArg String.data h
  simp only [String.data_append, List.append_assoc, data_file, data_cls, data_method,
    List.cons_append, List.nil_append, List.cons.injEq, true_and] at hd
  obtain ⟨-, hr⟩ := append_sep_inj hp hrel hd
  injection hr with h1 hr
  injection hr with h2 hr
  injection hr with h3 hr
  injection hr with h4 hr
  apply hcc
  rw [hr]
  exact List.mem_append_right _ (List.mem_cons_self _ _)

/-! ## addEdge and applyObs facts -/

theorem data_arrow : ("→").data = ['→'] := rfl

theorem relationKeyPart_arrowFree (r : RelationType) : '→' ∉ (relationKeyPart r).data := by
  cases r <;> decide

theorem relationKeyPart_inj {r r' : RelationType} (h : relationKeyPart r = relationKeyPart r') :
    r = r' := by
  cases r <;> cases r' <;> (revert h; decide)

/-- The final segment after the last separator is determined when it is
separator-free on both sides. -/
theorem append_last_sep_inj {sep : Char} {a b x y : List Char}
    (hx : sep ∉ x) (hy : sep ∉ y) (h : a ++ sep :: x = b ++ sep :: y) : x = y := by
  have hrev := congrArg List.reverse h
  rw [List.reverse_append, List.reverse_append, List.reverse_cons, List.reverse_cons] at hrev
  rw [List.append_assoc, List.append_assoc, List.singleton_append] at hrev
  have hres := append_sep_inj (by simpa using hx) (by simpa using hy) hrev
  have := congrArg List.reverse hres.1
  simpa using this

theorem edgeKey_data (f t : String) (r : RelationType) :
    (edgeKey f t r).data = (f.data ++ '→' :: t.data) ++ '→' :: (relationKeyPart r).data := by
  unfold edgeKey
  simp only [String.data_append, List.append_assoc, data_arrow, List.cons_append,
    List.nil_append]

theorem edgeKey_rel_inj {f t f' t' : String} {r r' : RelationType}
    (h : edgeKey f t r = edgeKey f' t' r') : r = r' := by
  have hd := congrArg String.data h
  rw [edgeKey_data, edgeKey_data] at hd
  have := append_last_sep_inj (relationKeyPart_arrowFree r) (relationKeyPart_arrowFree r') hd
  exact relationKeyPart_inj (str_data_inj this)

theorem edgeKey_inj {f t f' t' : String} {r r' : RelationType}
    (hf : '→' ∉ f.data) (ht : '→' ∉ t.data) (hf' : '→' ∉ f'.data) (ht' : '→' ∉ t'.data)
    (h : edgeKey f t r = edgeKey f' t' r') : f = f' ∧ t = t' ∧ r = r' := by
  have hd := congrArg String.data h
  rw [edgeKey_data, edgeKey_data] at hd
  rw [List.append_assoc, List.append_assoc] at hd
  obtain ⟨h1, h2⟩ := append_sep_inj hf hf' hd
  obtain ⟨h3, h4⟩ := append_sep_inj ht ht' h2
  exact ⟨str_data_inj h1, str_data_inj h3,
    relationKeyPart_inj (str_data_inj h4)⟩

/-- The invariant maintained by `addEdge`: keys are unique and are the
dedup keys of their values, every stored edge's `(from, to, relation)`
triple is one of the recorded observations, every stored `callCount` is a
defined value of at least 1, and non-`calls` edges keep `callCount = 1`. -/
def EdgeMapInv (obs : List Obs) (m : JsMap ProjectEdge) : Prop :=
  m.KeysNodup ∧
  ∀ en ∈ m.entries,
    en.1 = edgeKey en.2.«from» en.2.«to» en.2.relation ∧
    (⟨en.2.«from», en.2.«to», en.2.relation⟩ : Obs) ∈ obs ∧
    ∃ c, en.2.callCount = some c ∧ 1 ≤ c ∧ (en.2.relation ≠ .calls → c = 1)

theorem addEdge_eq_insert {m : JsMap ProjectEdge} {f t : String} {r : RelationType}
    (h : m.get? (edgeKey f t r) = none) :
    addEdge m f t r
      = m.set (edgeKey f t r) { «from» := f, «to» := t, relation := r, callCount := some 1 } := by
  unfold addEdge
  simp only
  rw [h]

theorem addEdge_eq_update {m : JsMap ProjectEdge} {f t : String} {r : RelationType}
    {e : ProjectEdge} (h : m.get? (edgeKey f t r) = some e) (hr : r = .calls) :
    addEdge m f t r
      = m.set (edgeKey f t r) { e with callCount := some (jsOrOne e.callCount + 1) } := by
  unfold addEdge
  simp only
  rw [h]
  show (if r = RelationType.calls then
      m.set (edgeKey f t r) { e with callCount := some (jsOrOne e.callCount + 1) }
    else m) = _
  rw [if_pos hr]

theorem addEdge_eq_noop {m : JsMap ProjectEdge} {f t : String} {r : RelationType}
    {e : ProjectEdge} (h : m.get? (edgeKey f t r) = some e) (hr : ¬ r = .calls) :
    addEdge m f t r = m := by
  unfold addEdge
  simp only
  rw [h]
  show (if r = RelationType.calls then
      m.set (edgeKey f t r) { e with callCount := some (jsOrOne e.callCount + 1) }
    else m) = _
  rw [if_neg hr]

theorem edgeMapInv_addEdge {obs : List Obs} {m : JsMap ProjectEdge} (hinv : EdgeMapInv obs m)
    {o : Obs} (ho : o ∈ obs) : EdgeMapInv obs (addEdge m o.f o.t o.r) := by
  obtain ⟨hnd, hent⟩ := hinv
  cases hget : m.get? (edgeKey o.f o.t o.r) with
  | none =>
    rw [addEdge_eq_insert hget]
    refine ⟨JsMap.keysNodup_set hnd _ _, ?_⟩
    intro en hen
    rcases JsMap.mem_entries_set hen with hen | hen
    · exact hent en hen
    · rw [hen]
      exact ⟨rfl, ho, 1, rfl, le_refl 1, fun _ => rfl⟩
  | some e =>
    by_cases hr : o.r = .calls
    · rw [addEdge_eq_update hget hr]
      refine ⟨JsMap.keysNodup_set hnd _ _, ?_⟩
      intro en hen
      rcases JsMap.mem_entries_set hen with hen | hen
      · exact hent en hen
      · have he_mem := JsMap.get?_mem_entries hget
        obtain ⟨hkey, hobs, c, hc, hc1, hnc⟩ := hent _ he_mem
        have hrel : o.r = e.relation := edgeKey_rel_inj hkey
        rw [hen]
        refine ⟨hkey, hobs, jsOrOne e.callCount + 1, rfl, by omega, ?_⟩
        intro hne
        exact absurd (hrel ▸ hr) hne
    · rw [addEdge_eq_noop hget hr]
      exact ⟨hnd, hent⟩

theorem edgeMapInv_applyObs (obs : List Obs) : EdgeMapInv obs (applyObs JsMap.empty obs) := by
  unfold applyObs
  apply foldl_preserves_of_mem
  · intro m o ho hinv
    exact edgeMapInv_addEdge hinv ho
  · refine ⟨JsMap.keysNodup_empty, ?_⟩
    intro en hen
    simp [JsMap.empty] at hen

/-- An `addEdge` call whose key differs leaves a lookup unchanged. -/
theorem addEdge_get?_other {m : JsMap ProjectEdge} {f t : String} {r : RelationType}
    {k : String} (hk : k ≠ edgeKey f t r) :
    (addEdge m f t r).get? k = m.get? k := by
  cases hget : m.get? (edgeKey f t r) with
  | none =>
    rw [addEdge_eq_insert hget]
    exact JsMap.get?_set_ne m _ hk
  | some e =>
    by_cases hr : r = .calls
    · rw [addEdge_eq_update hget hr]
      exact JsMap.get?_set_ne m _ hk
    · rw [addEdge_eq_noop hget hr]

/-- Number of observed call sites for the ordered pair `(a, b)`. -/
def callsObsCount (obs : List Obs) (a b : String) : Nat :=
  obs.countP (fun o => o = ⟨a, b, .calls⟩)

theorem applyObs_calls_count {a b : String} (ha : '→' ∉ a.data) (hb : '→' ∉ b.data) :
    ∀ (obs : List Obs) (m : JsMap ProjectEdge) (c : Nat),
      (∀ o ∈ obs, o.r = .calls → '→' ∉ o.f.data ∧ '→' ∉ o.t.data) →
      ((c = 0 ∧ m.get? (edgeKey a b .calls) = none) ∨
        (1 ≤ c ∧ m.get? (edgeKey a b .calls) = some ⟨a, b, .calls, some c⟩)) →
      ((c + callsObsCount obs a b = 0 ∧ (applyObs m obs).get? (edgeKey a b .calls) = none) ∨
        (1 ≤ c + callsObsCount obs a b ∧
          (applyObs m obs).get? (edgeKey a b .calls)
            = some ⟨a, b, .calls, some (c + callsObsCount obs a b)⟩)) := by
  intro obs
  induction obs with
  | nil =>
    intro m c _ h
    simpa [applyObs, callsObsCount] using h
  | cons o rest ih =>
    intro m c hwf h
    have hstep : applyObs m (o :: rest) = applyObs (addEdge m o.f o.t o.r) rest := rfl
    rw [hstep]
    have hwfr : ∀ o ∈ rest, o.r = .calls → '→' ∉ o.f.data ∧ '→' ∉ o.t.data :=
      fun o ho hr => hwf o (List.mem_cons_of_mem _ ho) hr
    by_cases ho : o = (⟨a, b, .calls⟩ : Obs)
    · have hcount : callsObsCount (o :: rest) a b = callsObsCount rest a b + 1 := by
        unfold callsObsCount
        rw [List.countP_cons]
        simp [ho]
      rw [hcount]
      have hres := ih (addEdge m o.f o.t o.r) (c + 1) hwfr ?_
      · rcases hres with ⟨h0, hmap⟩ | ⟨h1, hmap⟩
        · omega
        · right
          constructor
          · omega
          · rw [show c + (callsObsCount rest a b + 1) = c + 1 + callsObsCount rest a b by omega]
            exact hmap
      · rw [ho]
        simp only
        rcases h with ⟨hc0, hnone⟩ | ⟨hc1, hsome⟩
        · right
          rw [addEdge_eq_insert hnone]
          refine ⟨by omega, ?_⟩
          rw [hc0]
          exact JsMap.get?_set_self m _ _
        · right
          rw [addEdge_eq_update hsome rfl]
          refine ⟨by omega, ?_⟩
          have hjs : jsOrOne (some c) = c := by
            show (if c = 0 then 1 else c) = c
            rw [if_neg (by omega)]
          have hshow :
              (m.set (edgeKey a b RelationType.calls)
                ({ «from» := a, «to» := b, relation := RelationType.calls,
                   callCount := some (jsOrOne (some c) + 1) } : ProjectEdge)).get?
                (edgeKey a b RelationType.calls)
              = some ({ «from» := a, «to» := b, relation := RelationType.calls,
                        callCount := some (c + 1) } : ProjectEdge) := by
            rw [hjs]
            exact JsMap.get?_set_self m _ _
          exact hshow
    · have hcount : callsObsCount (o :: rest) a b = callsObsCount rest a b := by
        unfold callsObsCount
        rw [List.countP_cons]
        simp [ho]
      rw [hcount]
      apply ih (addEdge m o.f o.t o.r) c hwfr
      have hkey : edgeKey a b .calls ≠ edgeKey o.f o.t o.r := by
        intro hk
        by_cases hro : o.r = .calls
        · obtain ⟨hfa, htb, -⟩ := edgeKey_inj ha hb (hwf o (List.mem_cons_self o rest) hro).1
            (hwf o (List.mem_cons_self o rest) hro).2 hk
          apply ho
          cases o
          simp only at hfa htb hro
          rw [← hfa, ← htb, hro]
        · exact hro (edgeKey_rel_inj hk).symm
      rw [addEdge_get?_other (Ne.symm (Ne.symm hkey))]
      exact h

/-! ## Input well-formedness

Colon-, arrow-, and backslash-free names and paths make the engine's id
grammar injective; declared callables are additionally required to be
named.  Concrete witnesses discharge this by evaluation. -/

def wfFunction (f : FunctionDecl) : Bool :=
  match f.name with
  | some n => (n != "") && okName n
  | none => false

def wfClass (c : ClassDecl) : Bool :=
  (match c.name with
   | some n => (n != "") && okName n
   | none => false) && c.methods.all (fun m => okName m.name)

def wfFile (sf : SourceFile) : Bool :=
  okName sf.absPath && sf.functions.all wfFunction && sf.«variables».all (fun v => okName v.name)
    && sf.classes.all wfClass
    && sf.imports.all (fun i =>
        match i.resolvedPath with
        | some p => okName p
        | none => true)

def wellFormedInput (inp : AnalyzeInput) : Bool :=
  okName inp.rootPath && inp.files.all wfFile

/-! ## Provenance of nodes -/

/-- The root-relative normalized path the engine computes for a source
file. -/
def relOf (inp : AnalyzeInput) (sf : SourceFile) : String :=
  replaceBackslashes (pathRelative inp.rootPath sf.absPath)

/-- A file that survives the source-set filter and is not skipped by the
pass guards contributes nodes. -/
def processedFile (inp : AnalyzeInput) (sf : SourceFile) : Prop :=
  sf ∈ keptFiles inp ∧ strStartsWith (relOf inp sf) ".." = false ∧
    strContainsSub (relOf inp sf) "node_modules" = false

/-- Every node the engine ever inserts has one of five shapes, fully
determined by a processed source file (or an ancestor folder of one), with
type, path, and parent fixed by the shape.  Under a well-formed input the
shape components are colon- and arrow-free. -/
def NodeFromRun (inp : AnalyzeInput) (n : ProjectNode) : Prop :=
  (∃ d, n.id = "folder:" ++ d ∧ n.type = .folder ∧ n.path = d ∧ n.parentId = none ∧
     (wellFormedInput inp = true → goodStr d))
  ∨ (∃ sf, processedFile inp sf ∧
       n.id = "file:" ++ relOf inp sf ∧ n.type = .file ∧ n.path = relOf inp sf ∧
       n.parentId = (if replaceBackslashes (dirname (relOf inp sf)) = "." then none
                     else some ("folder:" ++ replaceBackslashes (dirname (relOf inp sf)))) ∧
       (wellFormedInput inp = true → goodStr (relOf inp sf)))
  ∨ (∃ sf nm, processedFile inp sf ∧
       n.id = "file:" ++ relOf inp sf ++ ":fn:" ++ nm ∧ n.type = .function ∧
       n.path = relOf inp sf ∧ n.parentId = some ("file:" ++ relOf inp sf) ∧
       (wellFormedInput inp = true → goodStr (relOf inp sf) ∧ goodStr nm))
  ∨ (∃ sf nm, processedFile inp sf ∧
       n.id = "file:" ++ relOf inp sf ++ ":cls:" ++ nm ∧ n.type = .«class» ∧
       n.path = relOf inp sf ∧ n.parentId = some ("file:" ++ relOf inp sf) ∧
       (wellFormedInput inp = true → goodStr (relOf inp sf) ∧ goodStr nm))
  ∨ (∃ sf cn mn, processedFile inp sf ∧
       n.id = "file:" ++ relOf inp sf ++ ":cls:" ++ cn ++ ":method:" ++ mn ∧ n.type = .function ∧
       n.path = relOf inp sf ∧ n.parentId = some ("file:" ++ relOf inp sf ++ ":cls:" ++ cn) ∧
       (wellFormedInput inp = true → goodStr (relOf inp sf) ∧ goodStr cn ∧ goodStr mn))

/-- The pass-1 invariant: the node map stores well-shaped nodes under
their own ids with unique keys, and every observation recorded so far is a
`contains` or `imports` edge whose endpoints are arrow-free under a
well-formed input. -/
def NodesInv (inp : AnalyzeInput) (m : JsMap ProjectNode) : Prop :=
  m.KeysNodup ∧ ∀ en ∈ m.entries, en.1 = en.2.id ∧ NodeFromRun inp en.2

def Pass1Inv (inp : AnalyzeInput) (st : EngineState) : Prop :=
  NodesInv inp st.nodesMap ∧
  ∀ o ∈ st.obs, (o.r = .contains ∨ o.r = .imports) ∧
    (wellFormedInput inp = true → '→' ∉ o.f.data ∧ '→' ∉ o.t.data)

/-! ## Character bookkeeping helpers -/

theorem notin_append {c : Char} {a b : String} (ha : c ∉ a.data) (hb : c ∉ b.data) :
    c ∉ (a ++ b).data := by
  rw [String.data_append]
  intro h
  rcases List.mem_append.mp h with h | h
  · exact ha h
  · exact hb h

theorem goodStr_rb_dirname {d : String} (h : goodStr d) :
    goodStr (replaceBackslashes (dirname d)) :=
  ⟨replaceBackslashes_mem (by decide) (dirname_mem (by decide) (by decide) h.1),
   replaceBackslashes_mem (by decide) (dirname_mem (by decide) (by decide) h.2)⟩

theorem relOf_goodStr {inp : AnalyzeInput} {sf : SourceFile} (h : okName sf.absPath = true) :
    goodStr (relOf inp sf) := by
  obtain ⟨h1, h2, -⟩ := okName_spec h
  exact ⟨replaceBackslashes_mem (by decide) (pathRelative_mem (by decide) (by decide) h1),
    replaceBackslashes_mem (by decide) (pathRelative_mem (by decide) (by decide) h2)⟩

theorem wfFile_of_mem {inp : AnalyzeInput} {sf : SourceFile} (hwf : wellFormedInput inp = true)
    (hmem : sf ∈ inp.files) : wfFile sf = true := by
  unfold wellFormedInput at hwf
  rw [Bool.and_eq_true] at hwf
  exact List.all_eq_true.mp hwf.2 sf hmem

theorem keptFiles_sub {inp : AnalyzeInput} {sf : SourceFile} (h : sf ∈ keptFiles inp) :
    sf ∈ inp.files := by
  unfold keptFiles at h
  exact (List.mem_filter.mp h).1

theorem wfFile_spec {sf : SourceFile} (h : wfFile sf = true) :
    okName sf.absPath = true ∧ (∀ fn ∈ sf.functions, wfFunction fn = true) ∧
    (∀ v ∈ sf.«variables», okName v.name = true) ∧ (∀ c ∈ sf.classes, wfClass c = true) ∧
    (∀ i ∈ sf.imports, ∀ p, i.resolvedPath = some p → okName p = true) := by
  unfold wfFile at h
  simp only [Bool.and_eq_true] at h
  refine ⟨h.1.1.1.1, List.all_eq_true.mp h.1.1.1.2, List.all_eq_true.mp h.1.1.2,
    List.all_eq_true.mp h.1.2, ?_⟩
  intro i hi p hp
  have := List.all_eq_true.mp h.2 i hi
  rw [hp] at this
  exact this

theorem wfFunction_spec {fn : FunctionDecl} (h : wfFunction fn = true) :
    ∃ n, fn.name = some n ∧ n ≠ "" ∧ okName n = true := by
  unfold wfFunction at h
  cases hn : fn.name with
  | none => rw [hn] at h; exact absurd h (by simp)
  | some n =>
    rw [hn] at h
    rw [Bool.and_eq_true] at h
    exact ⟨n, rfl, by simpa using h.1, h.2⟩

theorem wfClass_spec {c : ClassDecl} (h : wfClass c = true) :
    (∃ n, c.name = some n ∧ n ≠ "" ∧ okName n = true) ∧
    ∀ m ∈ c.methods, okName m.name = true := by
  unfold wfClass at h
  rw [Bool.and_eq_true] at h
  obtain ⟨h1, h2⟩ := h
  refine ⟨?_, List.all_eq_true.mp h2⟩
  cases hn : c.name with
  | none => rw [hn] at h1; exact absurd h1 (by simp)
  | some n =>
    rw [hn] at h1
    rw [Bool.and_eq_true] at h1
    exact ⟨n, rfl, by simpa using h1.1, h1.2⟩

theorem goodStr_of_okName {s : String} (h : okName s = true) : goodStr s := by
  obtain ⟨h1, h2, -⟩ := okName_spec h
  exact ⟨h1, h2⟩

/-! ## Pass-1 invariant preservation -/

theorem nodesInv_set {inp : AnalyzeInput} {m : JsMap ProjectNode} (hinv : NodesInv inp m)
    {n : ProjectNode} (hn : NodeFromRun inp n) : NodesInv inp (m.set n.id n) := by
  obtain ⟨hnd, hent⟩ := hinv
  refine ⟨JsMap.keysNodup_set hnd _ _, ?_⟩
  intro en hen
  rcases JsMap.mem_entries_set hen with hen | hen
  · exact hent en hen
  · rw [hen]
    exact ⟨rfl, hn⟩

theorem nodesInv_set_key {inp : AnalyzeInput} {m : JsMap ProjectNode} (hinv : NodesInv inp m)
    {k : String} {n : ProjectNode} (hk : k = n.id) (hn : NodeFromRun inp n) :
    NodesInv inp (m.set k n) := by
  rw [hk]
  exact nodesInv_set hinv hn

theorem pass1Inv_parts {inp : AnalyzeInput} {st' : EngineState}
    (hn : NodesInv inp st'.nodesMap)
    (ho : ∀ o ∈ st'.obs, (o.r = .contains ∨ o.r = .imports) ∧
      (wellFormedInput inp = true → '→' ∉ o.f.data ∧ '→' ∉ o.t.data)) :
    Pass1Inv inp st' := ⟨hn, ho⟩

theorem pass1Inv_emit {inp : AnalyzeInput} {st : EngineState} {f t : String} {r : RelationType}
    (hinv : Pass1Inv inp st) (hr : r = .contains ∨ r = .imports)
    (hchar : wellFormedInput inp = true → '→' ∉ f.data ∧ '→' ∉ t.data) :
    Pass1Inv inp (emit st f t r) := by
  obtain ⟨hn, ho⟩ := hinv
  refine ⟨hn, ?_⟩
  intro o hoo
  unfold emit at hoo
  simp only at hoo
  rcases List.mem_append.mp hoo with h | h
  · exact ho o h
  · rw [List.mem_singleton] at h
    rw [h]
    exact ⟨hr, hchar⟩

theorem pass1Inv_addFolderStep {inp : AnalyzeInput} {st : EngineState} {d : String}
    (hd : wellFormedInput inp = true → goodStr d) (hinv : Pass1Inv inp st) :
    Pass1Inv inp (addFolderStep st d) := by
  unfold addFolderStep
  split
  · exact hinv
  · have hst1 : Pass1Inv inp
        { st with folderPaths := d :: st.folderPaths,
                  nodesMap := st.nodesMap.set ("folder:" ++ d) (folderNode d) } := by
      refine ⟨?_, hinv.2⟩
      have hnfr : NodeFromRun inp (folderNode d) := Or.inl ⟨d, rfl, rfl, rfl, rfl, hd⟩
      exact nodesInv_set hinv.1 hnfr
    dsimp only
    split
    · apply pass1Inv_emit hst1 (Or.inl rfl)
      intro hwf
      have hgd := hd hwf
      constructor
      · exact notin_append (by decide) (goodStr_rb_dirname hgd).2
      · exact notin_append (by decide) hgd.2
    · exact hst1

theorem pass1Inv_folderLoop {inp : AnalyzeInput} :
    ∀ (fuel : Nat) (d : String) (st : EngineState),
      (wellFormedInput inp = true → goodStr d) → Pass1Inv inp st →
      Pass1Inv inp (addFolderNodesLoop fuel d st) := by
  intro fuel
  induction fuel with
  | zero => intro d st _ h; exact h
  | succ n ih =>
    intro d st hd hinv
    unfold addFolderNodesLoop
    split
    · exact hinv
    · exact ih _ _ (fun hwf => goodStr_rb_dirname (hd hwf)) (pass1Inv_addFolderStep hd hinv)

theorem pass1Inv_addFolderNodes {inp : AnalyzeInput} {st : EngineState} {rel : String}
    (hrel : wellFormedInput inp = true → goodStr rel) (hinv : Pass1Inv inp st) :
    Pass1Inv inp (addFolderNodes rel st) := by
  unfold addFolderNodes
  exact pass1Inv_folderLoop _ _ _ (fun hwf => goodStr_rb_dirname (hrel hwf)) hinv

theorem pass1Inv_registerFunction {inp : AnalyzeInput} {sf : SourceFile}
    (hsf : processedFile inp sf) {fn : FunctionDecl} (hfn : fn ∈ sf.functions)
    {st : EngineState} (idx : Nat) (hinv : Pass1Inv inp st) :
    Pass1Inv inp (registerFunction ("file:" ++ relOf inp sf) (relOf inp sf) st idx fn) := by
  have hrel : wellFormedInput inp = true → goodStr (relOf inp sf) := fun hwf =>
    relOf_goodStr (wfFile_spec (wfFile_of_mem hwf (keptFiles_sub hsf.1))).1
  have hng : wellFormedInput inp = true →
      goodStr (match fn.name with
        | some n => if n = "" then "anonymous_" ++ toString idx else n
        | none => "anonymous_" ++ toString idx) := by
    intro hwf
    obtain ⟨n, hn, hne, hok⟩ := wfFunction_spec
      ((wfFile_spec (wfFile_of_mem hwf (keptFiles_sub hsf.1))).2.1 fn hfn)
    rw [hn]
    show goodStr (if n = "" then "anonymous_" ++ toString idx else n)
    rw [if_neg hne]
    exact goodStr_of_okName hok
  unfold registerFunction
  dsimp only
  apply pass1Inv_emit ?base (Or.inl rfl) ?chars
  case chars =>
    intro hwf
    exact ⟨notin_append (by decide) (hrel hwf).2,
      notin_append (notin_append (notin_append (by decide) (hrel hwf).2) (by decide))
        (hng hwf).2⟩
  case base =>
    refine ⟨?_, hinv.2⟩
    apply nodesInv_set_key hinv.1
    · rfl
    exact Or.inr (Or.inr (Or.inl ⟨sf, _, hsf, rfl, rfl, rfl, rfl,
      fun hwf => ⟨hrel hwf, hng hwf⟩⟩))

theorem pass1Inv_processVariable {inp : AnalyzeInput} {sf : SourceFile}
    (hsf : processedFile inp sf) {v : VariableDecl} (hv : v ∈ sf.«variables»)
    {st : EngineState} (hinv : Pass1Inv inp st) :
    Pass1Inv inp (processVariable ("file:" ++ relOf inp sf) (relOf inp sf) st v) := by
  have hrel : wellFormedInput inp = true → goodStr (relOf inp sf) := fun hwf =>
    relOf_goodStr (wfFile_spec (wfFile_of_mem hwf (keptFiles_sub hsf.1))).1
  have hng : wellFormedInput inp = true → goodStr v.name := fun hwf =>
    goodStr_of_okName ((wfFile_spec (wfFile_of_mem hwf (keptFiles_sub hsf.1))).2.2.1 v hv)
  unfold processVariable
  split
  · exact hinv
  · split
    · dsimp only
      split
      · exact hinv
      · apply pass1Inv_emit ?base (Or.inl rfl) ?chars
        case chars =>
          intro hwf
          exact ⟨notin_append (by decide) (hrel hwf).2,
            notin_append (notin_append (notin_append (by decide) (hrel hwf).2) (by decide))
              (hng hwf).2⟩
        case base =>
          refine ⟨?_, hinv.2⟩
          apply nodesInv_set_key hinv.1
          · rfl
          exact Or.inr (Or.inr (Or.inl ⟨sf, v.name, hsf, rfl, rfl, rfl,
            rfl, fun hwf => ⟨hrel hwf, hng hwf⟩⟩))
    · exact hinv

theorem pass1Inv_processMethod {inp : AnalyzeInput} {sf : SourceFile}
    (hsf : processedFile inp sf) {cname : String}
    (hcg : wellFormedInput inp = true → goodStr cname) {method : MethodDecl}
    (hmg : wellFormedInput inp = true → okName method.name = true)
    {st : EngineState} (hinv : Pass1Inv inp st) :
    Pass1Inv inp (processMethod ("file:" ++ relOf inp sf ++ ":cls:" ++ cname) (relOf inp sf)
      cname st method) := by
  have hrel : wellFormedInput inp = true → goodStr (relOf inp sf) := fun hwf =>
    relOf_goodStr (wfFile_spec (wfFile_of_mem hwf (keptFiles_sub hsf.1))).1
  unfold processMethod
  dsimp only
  apply pass1Inv_emit ?base (Or.inl rfl) ?chars
  case chars =>
    intro hwf
    refine ⟨?_, ?_⟩
    · exact notin_append (notin_append (notin_append (by decide) (hrel hwf).2) (by decide))
        (hcg hwf).2
    · exact notin_append (notin_append (notin_append (notin_append (notin_append (by decide)
        (hrel hwf).2) (by decide)) (hcg hwf).2) (by decide))
        (goodStr_of_okName (hmg hwf)).2
  case base =>
    refine ⟨?_, hinv.2⟩
    apply nodesInv_set_key hinv.1
    · rfl
    exact Or.inr (Or.inr (Or.inr (Or.inr
      ⟨sf, cname, method.name, hsf, rfl, rfl, rfl, rfl,
        fun hwf => ⟨hrel hwf, hcg hwf, goodStr_of_okName (hmg hwf)⟩⟩)))

theorem pass1Inv_processClass {inp : AnalyzeInput} {sf : SourceFile}
    (hsf : processedFile inp sf) {p : Nat × ClassDecl} (hp : p.2 ∈ sf.classes)
    {st : EngineState} (hinv : Pass1Inv inp st) :
    Pass1Inv inp (processClass ("file:" ++ relOf inp sf) (relOf inp sf) st p) := by
  have hrel : wellFormedInput inp = true → goodStr (relOf inp sf) := fun hwf =>
    relOf_goodStr (wfFile_spec (wfFile_of_mem hwf (keptFiles_sub hsf.1))).1
  have hwfc : wellFormedInput inp = true → wfClass p.2 = true := fun hwf =>
    (wfFile_spec (wfFile_of_mem hwf (keptFiles_sub hsf.1))).2.2.2.1 p.2 hp
  have hng : wellFormedInput inp = true →
      goodStr (match p.2.name with
        | some n => if n = "" then "AnonymousClass_" ++ toString p.1 else n
        | none => "AnonymousClass_" ++ toString p.1) := by
    intro hwf
    obtain ⟨⟨n, hn, hne, hok⟩, -⟩ := wfClass_spec (hwfc hwf)
    rw [hn]
    show goodStr (if n = "" then "AnonymousClass_" ++ toString p.1 else n)
    rw [if_neg hne]
    exact goodStr_of_okName hok
  unfold processClass
  dsimp only
  apply foldl_preserves_of_mem
  · intro stb method hmethod hstb
    exact pass1Inv_processMethod hsf hng
      (fun hwf => (wfClass_spec (hwfc hwf)).2 method hmethod) hstb
  · apply pass1Inv_emit ?base (Or.inl rfl) ?chars
    case chars =>
      intro hwf
      exact ⟨notin_append (by decide) (hrel hwf).2,
        notin_append (notin_append (notin_append (by decide) (hrel hwf).2) (by decide))
          (hng hwf).2⟩
    case base =>
      refine ⟨?_, hinv.2⟩
      apply nodesInv_set_key hinv.1
      · rfl
      exact Or.inr (Or.inr (Or.inr (Or.inl ⟨sf, _, hsf, rfl, rfl, rfl,
        rfl, fun hwf => ⟨hrel hwf, hng hwf⟩⟩)))

theorem pass1Inv_processImport {inp : AnalyzeInput} {sf : SourceFile}
    (hsf : processedFile inp sf) {imp : ImportDecl} (himp : imp ∈ sf.imports)
    {st : EngineState} (hinv : Pass1Inv inp st) :
    Pass1Inv inp (processImport inp.rootPath ("file:" ++ relOf inp sf) st imp) := by
  have hrel : wellFormedInput inp = true → goodStr (relOf inp sf) := fun hwf =>
    relOf_goodStr (wfFile_spec (wfFile_of_mem hwf (keptFiles_sub hsf.1))).1
  unfold processImport
  split
  · exact hinv
  · rename_i rp hrp
    dsimp only
    split
    · exact hinv
    · apply pass1Inv_emit hinv (Or.inr rfl)
      intro hwf
      have hok := (wfFile_spec (wfFile_of_mem hwf (keptFiles_sub hsf.1))).2.2.2.2 imp himp
        rp hrp
      obtain ⟨-, h2, -⟩ := okName_spec hok
      refine ⟨notin_append (by decide) (hrel hwf).2, ?_⟩
      exact notin_append (by decide)
        (replaceBackslashes_mem (by decide) (pathRelative_mem (by decide) (by decide) h2))

theorem pass1Inv_processFilePass1 {inp : AnalyzeInput} {sf : SourceFile}
    (hkept : sf ∈ keptFiles inp) {st : EngineState} (hinv : Pass1Inv inp st) :
    Pass1Inv inp (processFilePass1 inp.rootPath st sf) := by
  have hrel : wellFormedInput inp = true → goodStr (relOf inp sf) := fun hwf =>
    relOf_goodStr (wfFile_spec (wfFile_of_mem hwf (keptFiles_sub hkept))).1
  unfold processFilePass1
  dsimp only
  split
  · exact hinv
  · rename_i hguard
    have hsf : processedFile inp sf := by
      refine ⟨hkept, ?_, ?_⟩
      · cases hb : strStartsWith (relOf inp sf) ".."
        · rfl
        · exact absurd (Or.inl hb) hguard
      · cases hb : strContainsSub (relOf inp sf) "node_modules"
        · rfl
        · exact absurd (Or.inr hb) hguard
    apply foldl_preserves_of_mem
    · intro stb p hp hstb
      exact pass1Inv_processClass hsf (mem_enum_snd hp) hstb
    apply foldl_preserves_of_mem
    · intro stb v hv hstb
      exact pass1Inv_processVariable hsf hv hstb
    apply foldl_preserves_of_mem
    · intro stb p hp hstb
      exact pass1Inv_registerFunction hsf (mem_enum_snd hp) p.1 hstb
    apply foldl_preserves_of_mem
    · intro stb imp himp hstb
      exact pass1Inv_processImport hsf himp hstb
    have hst1 : Pass1Inv inp (addFolderNodes (relOf inp sf) st) :=
      pass1Inv_addFolderNodes hrel hinv
    split
    · rename_i hpd
      apply pass1Inv_emit ?b2 (Or.inl rfl) ?c2
      case c2 =>
        intro hwf
        exact ⟨notin_append (by decide) (goodStr_rb_dirname (hrel hwf)).2,
          notin_append (by decide) (hrel hwf).2⟩
      case b2 =>
        refine ⟨?_, hst1.2⟩
        apply nodesInv_set_key hst1.1
        · rfl
        exact Or.inr (Or.inl ⟨sf, hsf, rfl, rfl, rfl, (if_neg hpd).symm, hrel⟩)
    · rename_i hpd
      refine ⟨?_, hst1.2⟩
      apply nodesInv_set_key hst1.1
      · rfl
      exact Or.inr (Or.inl ⟨sf, hsf, rfl, rfl, rfl, rfl, hrel⟩)

theorem pass1State_inv (inp : AnalyzeInput) : Pass1Inv inp (pass1State inp) := by
  unfold pass1State
  apply foldl_preserves_of_mem
  · intro st sf hsf hst
    exact pass1Inv_processFilePass1 hsf hst
  · constructor
    · refine ⟨JsMap.keysNodup_empty, ?_⟩
      intro en hen
      simp [initialState, JsMap.empty] at hen
    · intro o ho
      simp [initialState] at ho

/-! ## Pass 2: the node and registry maps are read-only -/

theorem strAppend_assoc (a b c : String) : a ++ b ++ c = a ++ (b ++ c) := by
  apply String.ext
  simp [String.data_append, List.append_assoc]

theorem emit_nodesMap (st : EngineState) (f t : String) (r : RelationType) :
    (emit st f t r).nodesMap = st.nodesMap := rfl

theorem emit_fnRegistry (st : EngineState) (f t : String) (r : RelationType) :
    (emit st f t r).fnRegistry = st.fnRegistry := rfl

theorem tier2_maps {root : String} {nm : JsMap ProjectNode} {caller : String}
    {st : EngineState} {si : Option (String × List String)} :
    (tier2Resolve root nm caller st si).nodesMap = st.nodesMap ∧
    (tier2Resolve root nm caller st si).fnRegistry = st.fnRegistry := by
  unfold tier2Resolve
  cases si with
  | none => exact ⟨rfl, rfl⟩
  | some pr =>
    obtain ⟨sym, dps⟩ := pr
    dsimp only
    apply foldl_preserves_p
      (fun x : EngineState => x.nodesMap = st.nodesMap ∧ x.fnRegistry = st.fnRegistry)
    · intro b dp hb
      dsimp only
      split
      · exact hb
      · split
        · exact hb
        · exact hb
    · exact ⟨rfl, rfl⟩

theorem processCall_maps {root fid : String} {nm : JsMap ProjectNode} {rg : JsMap String}
    {st : EngineState} {ce : CallExpr} :
    (processCall root fid nm rg st ce).nodesMap = st.nodesMap ∧
    (processCall root fid nm rg st ce).fnRegistry = st.fnRegistry := by
  unfold processCall
  split
  · exact ⟨rfl, rfl⟩
  · dsimp only
    split
    · exact ⟨rfl, rfl⟩
    · split
      · exact ⟨rfl, rfl⟩
      · split
        · split
          · exact ⟨rfl, rfl⟩
          · exact tier2_maps
        · exact tier2_maps

theorem processFilePass2_maps {root : String} {nm : JsMap ProjectNode} {rg : JsMap String}
    {st : EngineState} {sf : SourceFile} :
    (processFilePass2 root nm rg st sf).nodesMap = st.nodesMap ∧
    (processFilePass2 root nm rg st sf).fnRegistry = st.fnRegistry := by
  unfold processFilePass2
  dsimp only
  split
  · exact ⟨rfl, rfl⟩
  · apply foldl_preserves_p
      (fun x : EngineState => x.nodesMap = st.nodesMap ∧ x.fnRegistry = st.fnRegistry)
    · intro b ce hb
      exact ⟨processCall_maps.1.trans hb.1, processCall_maps.2.trans hb.2⟩
    · exact ⟨rfl, rfl⟩

theorem pass2State_maps (inp : AnalyzeInput) :
    (pass2State inp).nodesMap = (pass1State inp).nodesMap ∧
    (pass2State inp).fnRegistry = (pass1State inp).fnRegistry := by
  unfold pass2State
  apply foldl_preserves_p
    (fun x : EngineState => x.nodesMap = (pass1State inp).nodesMap ∧
      x.fnRegistry = (pass1State inp).fnRegistry)
  · intro b sf hb
    exact ⟨processFilePass2_maps.1.trans hb.1, processFilePass2_maps.2.trans hb.2⟩
  · exact ⟨rfl, rfl⟩

/-! ## The caller search -/

theorem findAncestorId_spec {fid : String} {nm : JsMap ProjectNode} {a : AncestorKind}
    {cid : String} (h : findAncestorId fid nm a = some cid) :
    nm.has cid = true ∧
    ((∃ name, cid = fid ++ ":fn:" ++ name) ∨
      (∃ cn mName, cid = fid ++ ":cls:" ++ cn ++ ":method:" ++ mName)) := by
  cases a with
  | functionDecl nameOpt =>
    cases nameOpt with
    | some name =>
      simp only [findAncestorId] at h
      split at h
      · rename_i hcond
        injection h with h
        exact ⟨h ▸ hcond.2, Or.inl ⟨name, h.symm⟩⟩
      · exact absurd h (by simp)
    | none => exact absurd h (by simp [findAncestorId])
  | methodDecl isCls clsName mName =>
    cases isCls with
    | true =>
      simp only [findAncestorId] at h
      split at h
      · rename_i hcond
        injection h with h
        exact ⟨h ▸ hcond, Or.inr ⟨jsInterpolate clsName, mName, h.symm⟩⟩
      · exact absurd h (by simp)
    | false => exact absurd h (by simp [findAncestorId])
  | variableDecl nameOpt =>
    cases nameOpt with
    | some name =>
      simp only [findAncestorId] at h
      split at h
      · rename_i hcond
        injection h with h
        exact ⟨h ▸ hcond.2, Or.inl ⟨name, h.symm⟩⟩
      · exact absurd h (by simp)
    | none => exact absurd h (by simp [findAncestorId])
  | otherNode => exact absurd h (by simp [findAncestorId])

theorem findContaining_spec {fid : String} {nm : JsMap ProjectNode} :
    ∀ {l : List AncestorKind} {cid : String},
      findContainingFunctionId fid nm l = some cid →
      nm.has cid = true ∧
      ((∃ name, cid = fid ++ ":fn:" ++ name) ∨
        (∃ cn mName, cid = fid ++ ":cls:" ++ cn ++ ":method:" ++ mName)) := by
  intro l
  induction l with
  | nil =>
    intro cid h
    exact absurd h (by simp [findContainingFunctionId])
  | cons a rest ih =>
    intro cid h
    unfold findContainingFunctionId at h
    split at h
    · rename_i c hc
      injection h with h
      exact h ▸ findAncestorId_spec hc
    · exact ih h

/-- Under a well-formed input, a node sitting in the node map at an id of
caller shape (`fn:` or `cls:...:method:`) below a processed file id has
node type `function`. -/
theorem caller_node_isFunction {inp : AnalyzeInput} (hwf : wellFormedInput inp = true)
    {rel : String} (hrelg : goodStr rel) {nd : ProjectNode} (hNFR : NodeFromRun inp nd)
    (hshape : (∃ name, nd.id = ("file:" ++ rel) ++ ":fn:" ++ name) ∨
      (∃ cn mName, nd.id = ("file:" ++ rel) ++ ":cls:" ++ cn ++ ":method:" ++ mName)) :
    nd.type = .function := by
  rcases hNFR with ⟨d, hid, -, -, -, -⟩ | ⟨sf2, -, hid, -, -, -, hch⟩ |
    ⟨sf2, nm, -, -, htype, -, -, -⟩ | ⟨sf2, nm, -, hid, htype, -, -, hch⟩ |
    ⟨sf2, cn, mn, -, -, htype, -, -, -⟩
  · exfalso
    rcases hshape with ⟨name, hsh⟩ | ⟨cn, mName, hsh⟩
    · apply folderId_ne_fileId d (rel ++ (":fn:" ++ name))
      rw [← hid, hsh, strAppend_assoc, strAppend_assoc]
    · apply folderId_ne_fileId d (rel ++ (":cls:" ++ cn ++ ":method:" ++ mName))
      rw [← hid, hsh]
      rw [show ("file:" ++ rel) ++ ":cls:" ++ cn ++ ":method:" ++ mName
          = "file:" ++ (rel ++ (":cls:" ++ cn ++ ":method:" ++ mName)) by
        rw [strAppend_assoc, strAppend_assoc, strAppend_assoc, strAppend_assoc,
          strAppend_assoc, strAppend_assoc]]
  · exfalso
    have hpfree : ':' ∉ (relOf inp sf2).data := (hch hwf).1
    rcases hshape with ⟨name, hsh⟩ | ⟨cn, mName, hsh⟩
    · exact fileId_ne_fnId hpfree (hid.symm.trans hsh)
    · exact fileId_ne_methodId hpfree (hid.symm.trans hsh)
  · exact htype
  · exfalso
    have hpfree : ':' ∉ (relOf inp sf2).data := (hch hwf).1.1
    have hnmfree : ':' ∉ nm.data := (hch hwf).2.1
    rcases hshape with ⟨name, hsh⟩ | ⟨cn, mName, hsh⟩
    · exact clsId_ne_fnId hpfree hrelg.1 (hid.symm.trans hsh)
    · exact clsId_ne_methodId hpfree hrelg.1 hnmfree (hid.symm.trans hsh)
  · exact htype

/-- Under a well-formed input, every stored node id is arrow-free. -/
theorem nodeFromRun_id_arrowFree {inp : AnalyzeInput} {nd : ProjectNode}
    (h : NodeFromRun inp nd) (hwf : wellFormedInput inp = true) : '→' ∉ nd.id.data := by
  rcases h with ⟨d, hid, -, -, -, hch⟩ | ⟨sf, -, hid, -, -, -, hch⟩ |
    ⟨sf, nm, -, hid, -, -, -, hch⟩ | ⟨sf, nm, -, hid, -, -, -, hch⟩ |
    ⟨sf, cn, mn, -, hid, -, -, -, hch⟩
  · rw [hid]
    exact notin_append (by decide) (hch hwf).2
  · rw [hid]
    exact notin_append (by decide) (hch hwf).2
  · rw [hid]
    exact notin_append (notin_append (notin_append (by decide) (hch hwf).1.2) (by decide))
      (hch hwf).2.2
  · rw [hid]
    exact notin_append (notin_append (notin_append (by decide) (hch hwf).1.2) (by decide))
      (hch hwf).2.2
  · rw [hid]
    exact notin_append (notin_append (notin_append (notin_append (notin_append (by decide)
      (hch hwf).1.2) (by decide)) (hch hwf).2.1.2) (by decide)) (hch hwf).2.2.2

theorem nodesMap_id_arrowFree {inp : AnalyzeInput} (hwf : wellFormedInput inp = true)
    {x : String} (hhas : (pass1State inp).nodesMap.has x = true) : '→' ∉ x.data := by
  obtain ⟨nd, hget⟩ := JsMap.get?_isSome_of_has hhas
  have hmem := JsMap.get?_mem_entries hget
  have hfact := (pass1State_inv inp).1.2 _ hmem
  have hid : x = nd.id := hfact.1
  rw [hid]
  exact nodeFromRun_id_arrowFree hfact.2 hwf

/-! ## Pass-2 observation invariant -/

/-- What is known about every observation after pass 2: a `calls`
observation is never a self edge, its caller id is a key of the node map,
and under a well-formed input the node there is a `function` node; all
endpoint ids are arrow-free under a well-formed input. -/
def ObsOK (inp : AnalyzeInput) (o : Obs) : Prop :=
  (o.r = .calls → o.f ≠ o.t ∧ (pass1State inp).nodesMap.has o.f = true ∧
    (wellFormedInput inp = true →
      ∀ nd, (pass1State inp).nodesMap.get? o.f = some nd → nd.type = .function)) ∧
  (wellFormedInput inp = true → '→' ∉ o.f.data ∧ '→' ∉ o.t.data)

theorem pass2Inv_emit_calls {inp : AnalyzeInput} {st : EngineState} {caller target : String}
    (hinv : ∀ o ∈ st.obs, ObsOK inp o) (hne : caller ≠ target)
    (hhas : (pass1State inp).nodesMap.has caller = true)
    (hhast : (pass1State inp).nodesMap.has target = true)
    (hty : wellFormedInput inp = true →
      ∀ nd, (pass1State inp).nodesMap.get? caller = some nd → nd.type = .function) :
    ∀ o ∈ (emit st caller target .calls).obs, ObsOK inp o := by
  intro o ho
  unfold emit at ho
  simp only at ho
  rcases List.mem_append.mp ho with h | h
  · exact hinv o h
  · rw [List.mem_singleton] at h
    rw [h]
    refine ⟨fun _ => ⟨hne, hhas, hty⟩, fun hwf => ?_⟩
    exact ⟨nodesMap_id_arrowFree hwf hhas, nodesMap_id_arrowFree hwf hhast⟩

theorem pass2Inv_tier2 {inp : AnalyzeInput} {caller : String}
    (hhas : (pass1State inp).nodesMap.has caller = true)
    (hty : wellFormedInput inp = true →
      ∀ nd, (pass1State inp).nodesMap.get? caller = some nd → nd.type = .function)
    {st : EngineState} (hinv : ∀ o ∈ st.obs, ObsOK inp o)
    (si : Option (String × List String)) :
    ∀ o ∈ (tier2Resolve inp.rootPath (pass1State inp).nodesMap caller st si).obs,
      ObsOK inp o := by
  unfold tier2Resolve
  cases si with
  | none => exact hinv
  | some pr =>
    obtain ⟨sym, dps⟩ := pr
    dsimp only
    apply foldl_preserves_p (fun x : EngineState => ∀ o ∈ x.obs, ObsOK inp o)
    · intro b dp hb
      dsimp only
      split
      · exact hb
      · split
        · rename_i c hfound
          have hpred := List.find?_some hfound
          rw [Bool.and_eq_true] at hpred
          have hcne : c ≠ caller := by
            have := hpred.2
            rw [bne_iff_ne] at this
            exact this
          exact pass2Inv_emit_calls hb (Ne.symm hcne) hhas hpred.1 hty
        · exact hb
    · exact hinv

theorem pass2Inv_processCall {inp : AnalyzeInput} {sf : SourceFile} (hsf : processedFile inp sf)
    {st : EngineState} (hinv : ∀ o ∈ st.obs, ObsOK inp o) (ce : CallExpr) :
    ∀ o ∈ (processCall inp.rootPath ("file:" ++ relOf inp sf) (pass1State inp).nodesMap
      (pass1State inp).fnRegistry st ce).obs, ObsOK inp o := by
  unfold processCall
  split
  · exact hinv
  · rename_i callerFnId hfind
    have hspec := findContaining_spec hfind
    have hty : wellFormedInput inp = true →
        ∀ nd, (pass1State inp).nodesMap.get? callerFnId = some nd → nd.type = .function := by
      intro hwf nd hget
      have hmem := JsMap.get?_mem_entries hget
      have hfact := (pass1State_inv inp).1.2 _ hmem
      have hid : callerFnId = nd.id := hfact.1
      have hrelg : goodStr (relOf inp sf) :=
        relOf_goodStr (wfFile_spec (wfFile_of_mem hwf (keptFiles_sub hsf.1))).1
      exact caller_node_isFunction hwf hrelg hfact.2 (hid ▸ hspec.2)
    dsimp only
    split
    · exact hinv
    · split
      · exact hinv
      · split
        · split
          · rename_i targetId hreg hcond
            exact pass2Inv_emit_calls hinv (Ne.symm hcond.2.1) hspec.1 hcond.2.2 hty
          · exact pass2Inv_tier2 hspec.1 hty hinv _
        · exact pass2Inv_tier2 hspec.1 hty hinv _

theorem pass2State_obsOK (inp : AnalyzeInput) :
    ∀ o ∈ (pass2State inp).obs, ObsOK inp o := by
  unfold pass2State
  apply foldl_preserves_of_mem_p (fun x : EngineState => ∀ o ∈ x.obs, ObsOK inp o)
  · intro st sf hsf hst
    show ∀ o ∈ (processFilePass2 inp.rootPath (pass1State inp).nodesMap
      (pass1State inp).fnRegistry st sf).obs, ObsOK inp o
    unfold processFilePass2
    dsimp only
    split
    · exact hst
    · rename_i hguard
      have hpf : processedFile inp sf := by
        refine ⟨hsf, ?_, ?_⟩
        · cases hb : strStartsWith (relOf inp sf) ".."
          · rfl
          · exact absurd (Or.inl hb) hguard
        · cases hb : strContainsSub (relOf inp sf) "node_modules"
          · rfl
          · exact absurd (Or.inr hb) hguard
      apply foldl_preserves_p (fun x : EngineState => ∀ o ∈ x.obs, ObsOK inp o)
      · intro b ce hb
        exact pass2Inv_processCall hpf hb ce
      · exact hst
  · intro o ho
    have h1 := (pass1State_inv inp).2 o ho
    refine ⟨fun hr => ?_, h1.2⟩
    exfalso
    rcases h1.1 with h | h <;> rw [h] at hr <;> exact RelationType.noConfusion hr

/-! ## List helpers for the assembled-edge statements -/

theorem filter_and_filter {α : Type _} (p q : α → Bool) (l : List α) :
    (l.filter p).filter q = l.filter (fun x => p x && q x) := by
  induction l with
  | nil => rfl
  | cons x xs ih =>
    cases hp : p x
    · simp [List.filter_cons, hp, ih]
    · cases hq : q x
      · simp [List.filter_cons, hp, hq, ih]
      · simp [List.filter_cons, hp, hq, ih]

theorem filter_map_snd {α : Type _} (p : α → Bool) (l : List (String × α)) :
    (l.map Prod.snd).filter p = (l.filter (fun en => p en.2)).map Prod.snd := by
  induction l with
  | nil => rfl
  | cons x xs ih =>
    cases hp : p x.2
    · simp [List.filter_cons, hp, ih]
    · simp [List.filter_cons, hp, ih]

/-- In a nodup-keyed association list, when every entry satisfying `p` has
key `K` and `(K, v)` is an entry satisfying `p`, the filter keeps exactly
that entry. -/
theorem filter_keyed_single {α : Type _} (p : String × α → Bool) {K : String} {v : α}
    (hp : p (K, v) = true) :
    ∀ l : List (String × α), (l.map Prod.fst).Nodup →
      (∀ en ∈ l, p en = true → en.1 = K) → (K, v) ∈ l →
      l.filter p = [(K, v)] := by
  intro l
  induction l with
  | nil =>
    intro _ _ hmem
    simp at hmem
  | cons e es ih =>
    intro hnd hkey hmem
    have hnd' : e.1 ∉ es.map Prod.fst ∧ (es.map Prod.fst).Nodup := by
      rw [List.map_cons] at hnd
      exact List.nodup_cons.mp hnd
    rcases List.mem_cons.mp hmem with he | he
    · have hpe : p e = true := by rw [← he]; exact hp
      rw [List.filter_cons_of_pos hpe]
      have hes : es.filter p = [] := by
        rw [List.filter_eq_nil_iff]
        intro x hx hpx
        have hxk : x.1 = K := hkey x (List.mem_cons_of_mem e hx) hpx
        apply hnd'.1
        have he1 : e.1 = K := by rw [← he]
        rw [he1, ← hxk]
        exact List.mem_map_of_mem Prod.fst hx
      rw [hes, ← he]
    · have hKes : K ∈ es.map Prod.fst := by
        have hmm : ((K, v) : String × α).1 ∈ es.map Prod.fst := List.mem_map_of_mem Prod.fst he
        exact hmm
      have hpe : ¬ p e = true := fun hpe =>
        hnd'.1 ((hkey e (List.mem_cons_self e es) hpe).symm ▸ hKes)
      rw [List.filter_cons_of_neg hpe]
      exact ih hnd'.2 (fun en hen hpen => hkey en (List.mem_cons_of_mem e hen) hpen) he

/-! ## Path facts used by the filter-soundness claim -/

theorem strStartsWith_dotdot (x : String) : strStartsWith ("../" ++ x) ".." = true := by
  rw [strStartsWith_iff]
  refine ⟨'/' :: x.data, ?_⟩
  rw [String.data_append]
  rfl

/-- A path that starts with `root ++ "/"` is that prefix followed by its
root-relative remainder. -/
theorem startsWith_reconstruct {p r : String} (h : strStartsWith p (r ++ "/") = true) :
    p = (r ++ "/") ++ strDropChars p (r.length + 1) := by
  obtain ⟨t, ht⟩ := strStartsWith_iff.mp h
  have hlen : (r ++ "/").data.length = r.length + 1 := by
    rw [String.data_append, List.length_append]
    rfl
  have hdrop : (strDropChars p (r.length + 1)).data = t := by
    show p.data.drop (r.length + 1) = t
    rw [← ht, ← hlen]
    exact List.drop_left _ _
  apply str_data_inj
  rw [String.data_append, hdrop]
  exact ht.symm

theorem relOf_under_prefix {root p : String} (hbs : '\\' ∉ p.data)
    (hpre : strStartsWith p (root ++ "/") = true) :
    replaceBackslashes (pathRelative root p) = strDropChars p (root.length + 1) := by
  unfold pathRelative
  rw [if_pos hpre]
  apply replaceBackslashes_eq_self
  intro hm
  exact hbs (List.mem_of_mem_drop hm)

theorem relOf_not_under {root p : String} (hbs : '\\' ∉ p.data)
    (hpre : strStartsWith p (root ++ "/") = false) :
    replaceBackslashes (pathRelative root p) = "../" ++ p := by
  unfold pathRelative
  rw [if_neg (by simp [hpre])]
  exact replaceBackslashes_eq_self (notin_append (by decide) hbs)

theorem kept_not_ignored {nr p : String} (h : sourceFileKept nr p = true) :
    isIgnoredFile p = false := by
  unfold sourceFileKept at h
  rw [Bool.and_eq_true] at h
  have h2 := h.2
  cases hi : isIgnoredFile p
  · rfl
  · rw [hi] at h2
    exact absurd h2 (by decide)

/-- The exclusion condition of claim C8, read off the claim itself: the
path contains a generated/vendored directory segment, or its extension is
in the binary/media/font/archive/lock list, or its name is minified
(`.min.js` / `.min.css`). -/
def claimExcluded (p : String) : Bool :=
  ignoredPathSegments.any (fun ig => strContainsSub p ig)
    || BINARY_EXTENSIONS.contains (strToLower (extname p))
    || strEndsWith p ".min.js" || strEndsWith p ".min.css"

/-- The claim's exclusion condition coincides with the engine's own
removal test (engine.ts lines 100-110). -/
theorem claimExcluded_eq_isIgnoredFile (p : String) : claimExcluded p = isIgnoredFile p := rfl

/-- A processed (kept, non-skipped) file never shares its engine-relative
path with an excluded input file: the excluded file would otherwise have
the same absolute path and so could not have passed the keep filter. -/
theorem relOf_excluded_ne {inp : AnalyzeInput} {sf sf2 : SourceFile}
    (hwf : wellFormedInput inp = true) (hmem : sf ∈ inp.files)
    (hex : claimExcluded (replaceBackslashes sf.absPath) = true)
    (hproc2 : processedFile inp sf2) : relOf inp sf2 ≠ relOf inp sf := by
  intro heq
  have hbs : '\\' ∉ sf.absPath.data :=
    (okName_spec (wfFile_spec (wfFile_of_mem hwf hmem)).1).2.2
  have hmem2 : sf2 ∈ inp.files := keptFiles_sub hproc2.1
  have hbs2 : '\\' ∉ sf2.absPath.data :=
    (okName_spec (wfFile_spec (wfFile_of_mem hwf hmem2)).1).2.2
  have hpre2 : strStartsWith sf2.absPath (inp.rootPath ++ "/") = true := by
    cases hb : strStartsWith sf2.absPath (inp.rootPath ++ "/")
    · exfalso
      have h2 : relOf inp sf2 = "../" ++ sf2.absPath := relOf_not_under hbs2 hb
      have hdd := hproc2.2.1
      rw [h2, strStartsWith_dotdot] at hdd
      exact absurd hdd (by decide)
    · rfl
  have hrel2 : relOf inp sf2 = strDropChars sf2.absPath (inp.rootPath.length + 1) :=
    relOf_under_prefix hbs2 hpre2
  have hpre : strStartsWith sf.absPath (inp.rootPath ++ "/") = true := by
    cases hb : strStartsWith sf.absPath (inp.rootPath ++ "/")
    · exfalso
      have h1 : relOf inp sf = "../" ++ sf.absPath := relOf_not_under hbs hb
      have hdd := hproc2.2.1
      rw [heq, h1, strStartsWith_dotdot] at hdd
      exact absurd hdd (by decide)
    · rfl
  have hrel : relOf inp sf = strDropChars sf.absPath (inp.rootPath.length + 1) :=
    relOf_under_prefix hbs hpre
  have habs : sf2.absPath = sf.absPath := by
    rw [startsWith_reconstruct hpre2, startsWith_reconstruct hpre, ← hrel2, ← hrel, heq]
  have hk2 : sourceFileKept (replaceBackslashes inp.rootPath) (replaceBackslashes sf2.absPath)
      = true := by
    have hkm := hproc2.1
    unfold keptFiles at hkm
    exact (List.mem_filter.mp hkm).2
  rw [habs] at hk2
  have hig : isIgnoredFile (replaceBackslashes sf.absPath) = true := by
    rw [← claimExcluded_eq_isIgnoredFile]
    exact hex
  have hni := kept_not_ignored hk2
  rw [hig] at hni
  exact absurd hni (by decide)

/-! ## Registry tracking through pass 1 for a one-function file -/

theorem addFolderStep_fnRegistry (st : EngineState) (d : String) :
    (addFolderStep st d).fnRegistry = st.fnRegistry := by
  unfold addFolderStep
  split
  · rfl
  · dsimp only
    split
    · rfl
    · rfl

theorem addFolderNodesLoop_fnRegistry :
    ∀ (fuel : Nat) (d : String) (st : EngineState),
      (addFolderNodesLoop fuel d st).fnRegistry = st.fnRegistry := by
  intro fuel
  induction fuel with
  | zero =>
    intro d st
    rfl
  | succ k ih =>
    intro d st
    show (if d = "." ∨ d = "" ∨ d = "/" then st
        else addFolderNodesLoop k (replaceBackslashes (dirname d))
          (addFolderStep st d)).fnRegistry = st.fnRegistry
    split
    · rfl
    · rw [ih, addFolderStep_fnRegistry]

theorem addFolderNodes_fnRegistry (rel : String) (st : EngineState) :
    (addFolderNodes rel st).fnRegistry = st.fnRegistry :=
  addFolderNodesLoop_fnRegistry _ _ _

/-- A source file declaring exactly one named top-level function and
nothing else. -/
def simpleFnFile (absPath n : String) (line : Nat) : SourceFile :=
  { absPath := absPath, fullText := "", imports := [],
    functions := [{ name := some n, line := line, text := "", jsDocs := [] }],
    «variables» := [], classes := [], calls := [] }

theorem pathRelative_under (root p : String) :
    replaceBackslashes (pathRelative root (root ++ "/" ++ p)) = replaceBackslashes p := by
  unfold pathRelative
  have h1 : strStartsWith (root ++ "/" ++ p) (root ++ "/") = true := by
    rw [strStartsWith_iff]
    exact ⟨p.data, (String.data_append _ _).symm⟩
  rw [if_pos h1]
  have h2 : strDropChars (root ++ "/" ++ p) (root.length + 1) = p := by
    apply str_data_inj
    show ((root ++ "/") ++ p).data.drop (root.length + 1) = p.data
    rw [String.data_append]
    have hlen : (root ++ "/").data.length = root.length + 1 := by
      rw [String.data_append, List.length_append]
      rfl
    rw [← hlen]
    exact List.drop_left _ _
  rw [h2]

theorem processFilePass1_simple_fnRegistry (root p n : String) (l : Nat) (st : EngineState)
    (hbs : replaceBackslashes p = p) (hne : n ≠ "")
    (hg : strStartsWith p ".." = false) (hm : strContainsSub p "node_modules" = false) :
    (processFilePass1 root st (simpleFnFile (root ++ "/" ++ p) n l)).fnRegistry
      = st.fnRegistry.set n ("file:" ++ p ++ ":fn:" ++ n) := by
  have hrel : replaceBackslashes (pathRelative root (root ++ "/" ++ p)) = p :=
    (pathRelative_under root p).trans hbs
  have hguard : ¬ (strStartsWith p ".." = true ∨ strContainsSub p "node_modules" = true) := by
    intro h
    rcases h with h | h
    · rw [hg] at h
      exact absurd h (by decide)
    · rw [hm] at h
      exact absurd h (by decide)
  unfold processFilePass1
  dsimp only [simpleFnFile]
  rw [hrel, if_neg hguard]
  simp only [List.enum, List.enumFrom, List.foldl_cons, List.foldl_nil]
  unfold registerFunction
  dsimp only
  rw [if_neg hne]
  show (JsMap.set _ n (("file:" ++ p) ++ ":fn:" ++ n)) = _
  have hbase : (if replaceBackslashes (dirname p) ≠ "." then
      emit { addFolderNodes p st with
              nodesMap := (addFolderNodes p st).nodesMap.set ("file:" ++ p)
                { id := "file:" ++ p, name := basename (root ++ "/" ++ p), type := .file,
                  path := p, line := none,
                  parentId := if replaceBackslashes (dirname p) = "." then none
                    else some ("folder:" ++ replaceBackslashes (dirname p)),
                  content := some (strTake "" 8000), signature := none, docComment := none } }
        ("folder:" ++ replaceBackslashes (dirname p)) ("file:" ++ p) .contains
      else { addFolderNodes p st with
              nodesMap := (addFolderNodes p st).nodesMap.set ("file:" ++ p)
                { id := "file:" ++ p, name := basename (root ++ "/" ++ p), type := .file,
                  path := p, line := none,
                  parentId := if replaceBackslashes (dirname p) = "." then none
                    else some ("folder:" ++ replaceBackslashes (dirname p)),
                  content := some (strTake "" 8000), signature := none,
                  docComment := none } }).fnRegistry = st.fnRegistry := by
    split
    · rw [emit_fnRegistry]
      exact addFolderNodes_fnRegistry p st
    · exact addFolderNodes_fnRegistry p st
  rw [hbase]

/-! ## Concrete example inputs -/

/-- `a.ts`: one exported function `helper`. -/
def egHelperFile : SourceFile :=
  { absPath := "/r/a.ts", fullText := "", imports := [],
    functions := [{ name := some "helper", line := 1, text := "", jsDocs := [] }],
    «variables» := [], classes := [], calls := [] }

/-- One call expression `helper()` inside the body of `main`. -/
def egMainCall : CallExpr :=
  { callee := .identifier "helper", ancestors := [.functionDecl (some "main")],
    symbolInfo := none }

/-- `b.ts`: imports `a.ts`, declares `main`, and calls `helper` at three
distinct call sites. -/
def egMainFile : SourceFile :=
  { absPath := "/r/b.ts", fullText := "",
    imports := [{ resolvedPath := some "/r/a.ts" }],
    functions := [{ name := some "main", line := 1, text := "", jsDocs := [] }],
    «variables» := [], classes := [],
    calls := [egMainCall, egMainCall, egMainCall] }

def egInput : AnalyzeInput := { rootPath := "/r", files := [egHelperFile, egMainFile] }

/-- One file declaring two functions both named `f`, at lines 1 and 5. -/
def egDupFile : SourceFile :=
  { absPath := "/r/a.ts", fullText := "", imports := [],
    functions := [{ name := some "f", line := 1, text := "", jsDocs := [] },
                  { name := some "f", line := 5, text := "", jsDocs := [] }],
    «variables» := [], classes := [], calls := [] }

def egDupInput : AnalyzeInput := { rootPath := "/r", files := [egDupFile] }

/-- One file nested two directories deep, producing folder nodes `x` and
`x/y`. -/
def egDeepFile : SourceFile :=
  { absPath := "/r/x/y/c.ts", fullText := "", imports := [], functions := [],
    «variables» := [], classes := [], calls := [] }

def egDeepInput : AnalyzeInput := { rootPath := "/r", files := [egDeepFile] }

/-- A binary file (`.png` is in the excluded-extension list). -/
def egPngFile : SourceFile :=
  { absPath := "/r/x.png", fullText := "", imports := [], functions := [],
    «variables» := [], classes := [], calls := [] }

def egC8Input : AnalyzeInput := { rootPath := "/r", files := [egPngFile, egHelperFile] }

/-- An input whose only file is filtered out, so no source file survives. -/
def egNoSourceInput : AnalyzeInput := { rootPath := "/r", files := [egPngFile] }

/-- The assembly liveness test for one endpoint id: it is the id of some
stored node. -/
def liveEndpoint (inp : AnalyzeInput) (x : String) : Bool :=
  ((pass2State inp).nodesMap.values.map (fun n => n.id)).contains x

/-- The number of call sites a run observes for the ordered pair
`(a, b)`: how many `addEdge(a, b, "calls")` invocations pass 2 records. -/
def observedCallSites (inp : AnalyzeInput) (a b : String) : Nat :=
  callsObsCount (pass2State inp).obs a b

/-- Selects the `calls` edges from `a` to `b`. -/
def callsEdgePred (a b : String) (e : ProjectEdge) : Bool :=
  decide (e.«from» = a ∧ e.«to» = b ∧ e.relation = RelationType.calls)

/-! ## The claims -/

/-- C1: every edge in the graph returned by `analyze` has both its `from`
id and its `to` id among the ids of the returned nodes; accumulated edges
with a dead endpoint are dropped at assembly rather than reported as
errors. -/
theorem C1_edge_referential_integrity (inp : AnalyzeInput) :
    ∀ e ∈ (analyze inp).edges,
      (∃ n ∈ (analyze inp).nodes, n.id = e.«from») ∧
      (∃ n ∈ (analyze inp).nodes, n.id = e.«to») := by
  intro e he
  have he2 : e ∈ List.filter
      (fun e : ProjectEdge =>
        ((pass2State inp).nodesMap.values.map (fun n => n.id)).contains e.«from»
          && ((pass2State inp).nodesMap.values.map (fun n => n.id)).contains e.«to»)
      (applyObs JsMap.empty (pass2State inp).obs).values := he
  have hcond := (List.mem_filter.mp he2).2
  rw [Bool.and_eq_true] at hcond
  constructor
  · have hmm : e.«from» ∈ (pass2State inp).nodesMap.values.map (fun n => n.id) :=
      List.mem_of_elem_eq_true hcond.1
    obtain ⟨n, hnv, hnid⟩ := List.mem_map.mp hmm
    exact ⟨n, hnv, hnid⟩
  · have hmm : e.«to» ∈ (pass2State inp).nodesMap.values.map (fun n => n.id) :=
      List.mem_of_elem_eq_true hcond.2
    obtain ⟨n, hnv, hnid⟩ := List.mem_map.mp hmm
    exact ⟨n, hnv, hnid⟩

theorem C1_witness :
    (∃ n ∈ (analyze egInput).nodes, n.id = "file:b.ts") ∧
    (∃ n ∈ (analyze egInput).nodes, n.id = "file:a.ts") :=
  C1_edge_referential_integrity egInput
    { «from» := "file:b.ts", «to» := "file:a.ts", relation := .imports, callCount := some 1 }
    (by decide)

/-- C3 counterexample: on a two-file input the returned graph holds a
`contains` edge carrying `callCount = some 1`, so `callCount` is not
present only on `calls` edges. -/
theorem C3_counterexample :
    (∃ e ∈ (analyze egInput).edges,
        e.relation = RelationType.contains ∧ e.callCount = some 1) ∧
    ¬ (∀ e ∈ (analyze egInput).edges,
        e.relation ≠ RelationType.calls → e.callCount = none) := by
  decide

/-- C3 (amended): every edge in the returned graph carries a defined
`callCount` of at least 1; edges whose relation is not `calls` always
carry exactly `callCount = some 1`, so only `calls` edges can exceed 1. -/
theorem C3_amended_callCount_always_present (inp : AnalyzeInput) :
    ∀ e ∈ (analyze inp).edges,
      (∃ c, e.callCount = some c ∧ 1 ≤ c) ∧
      (e.relation ≠ RelationType.calls → e.callCount = some 1) := by
  intro e he
  have he2 : e ∈ List.filter
      (fun e : ProjectEdge =>
        ((pass2State inp).nodesMap.values.map (fun n => n.id)).contains e.«from»
          && ((pass2State inp).nodesMap.values.map (fun n => n.id)).contains e.«to»)
      (applyObs JsMap.empty (pass2State inp).obs).values := he
  have hmem2 : e ∈ (applyObs JsMap.empty (pass2State inp).obs).entries.map (fun x => x.2) :=
    (List.mem_filter.mp he2).1
  obtain ⟨en, hen, hsnd⟩ := List.mem_map.mp hmem2
  obtain ⟨-, -, c, hc, hc1, hnc⟩ := (edgeMapInv_applyObs (pass2State inp).obs).2 en hen
  rw [← hsnd]
  exact ⟨⟨c, hc, hc1⟩, fun hne => by rw [hc, hnc hne]⟩

theorem C3_amended_witness :
    (∃ c, (some 1 : Option Nat) = some c ∧ 1 ≤ c) ∧
    (RelationType.contains ≠ RelationType.calls → (some 1 : Option Nat) = some 1) :=
  C3_amended_callCount_always_present egInput
    { «from» := "file:a.ts", «to» := "file:a.ts:fn:helper", relation := .contains,
      callCount := some 1 } (by decide)

/-- C4: no `calls` edge of the returned graph is a self edge: both
resolution tiers refuse a callee id equal to the caller's own id, so a
recursive function yields no edge to itself. -/
theorem C4_no_self_call_edges (inp : AnalyzeInput) :
    ∀ e ∈ (analyze inp).edges, e.relation = RelationType.calls → e.«from» ≠ e.«to» := by
  intro e he hrel
  have he2 : e ∈ List.filter
      (fun e : ProjectEdge =>
        ((pass2State inp).nodesMap.values.map (fun n => n.id)).contains e.«from»
          && ((pass2State inp).nodesMap.values.map (fun n => n.id)).contains e.«to»)
      (applyObs JsMap.empty (pass2State inp).obs).values := he
  have hmem2 : e ∈ (applyObs JsMap.empty (pass2State inp).obs).entries.map (fun x => x.2) :=
    (List.mem_filter.mp he2).1
  obtain ⟨en, hen, hsnd⟩ := List.mem_map.mp hmem2
  obtain ⟨-, hobs, -⟩ := (edgeMapInv_applyObs (pass2State inp).obs).2 en hen
  have hok := pass2State_obsOK inp _ hobs
  have hr : (⟨en.2.«from», en.2.«to», en.2.relation⟩ : Obs).r = RelationType.calls := by
    show en.2.relation = RelationType.calls
    rw [hsnd, hrel]
  have hne := (hok.1 hr).1
  show e.«from» ≠ e.«to»
  rw [← hsnd]
  exact hne

theorem C4_witness : ("file:b.ts:fn:main" : String) ≠ "file:a.ts:fn:helper" :=
  C4_no_self_call_edges egInput
    { «from» := "file:b.ts:fn:main", «to» := "file:a.ts:fn:helper",
      relation := .calls, callCount := some 3 } (by decide) rfl

/-- C5 counterexample: one file declaring two functions both named `f` at
lines 1 and 5: the run keeps the line-5 node, so a later insertion at an
existing node id is an overwrite, not a no-op. -/
theorem C5_counterexample :
    (∃ n ∈ (analyze egDupInput).nodes, n.id = "file:a.ts:fn:f" ∧ n.line = some 5) ∧
    ¬ (∀ n ∈ (analyze egDupInput).nodes, n.id = "file:a.ts:fn:f" → n.line = some 1) := by
  decide

/-- C5 (amended): the node map is first-writer-wins only where the source
guards the insert — the variable-initializer branch skips when the node id
exists, and the folder builder skips already-seen folders — while
`_registerFunction` (and the file/class/method inserts, which use the same
unconditional `Map.set`) replaces whatever node was stored under the id. -/
theorem C5_amended_insertion_semantics :
    (∀ (fileNodeId relativePath : String) (st : EngineState) (v : VariableDecl),
        st.nodesMap.has (fileNodeId ++ ":fn:" ++ v.name) = true →
        processVariable fileNodeId relativePath st v = st) ∧
    (∀ (st : EngineState) (d : String), st.folderPaths.contains d = true →
        addFolderStep st d = st) ∧
    (∀ (fileNodeId relativePath : String) (st : EngineState) (idx : Nat) (fn : FunctionDecl)
        (nm : String), fn.name = some nm → nm ≠ "" →
        (registerFunction fileNodeId relativePath st idx fn).nodesMap.get?
            (fileNodeId ++ ":fn:" ++ nm)
          = some { id := fileNodeId ++ ":fn:" ++ nm, name := nm, type := .function,
                   path := relativePath, line := some fn.line,
                   parentId := some fileNodeId,
                   content := some (strTake fn.text 3000),
                   signature := some (strTrim (upToBrace fn.text)),
                   docComment := some (joinDocs fn.jsDocs) }) := by
  refine ⟨?_, ?_, ?_⟩
  · intro fid rel st v hhas
    unfold processVariable
    cases v.initKind with
    | none => rfl
    | some k =>
      dsimp only
      by_cases hk : k = InitKind.arrowFunction ∨ k = InitKind.functionExpression
      · rw [if_pos hk, if_pos hhas]
      · rw [if_neg hk]
  · intro st d hc
    unfold addFolderStep
    rw [if_pos hc]
  · intro fid rel st idx fn nm hname hne
    unfold registerFunction
    rw [hname]
    dsimp only
    rw [if_neg hne]
    exact JsMap.get?_set_self _ _ _

/-- A state whose folder seen-set already holds `"x"`. -/
def egSeenFolderState : EngineState :=
  { nodesMap := JsMap.empty, fnRegistry := JsMap.empty, folderPaths := ["x"], obs := [] }

def egDupVariable : VariableDecl :=
  { name := "f", line := 9, initKind := some .arrowFunction, initText := "" }

def egDupFn : FunctionDecl := { name := some "f", line := 5, text := "", jsDocs := [] }

theorem C5_amended_witness :
    processVariable "file:a.ts" "a.ts" (pass1State egDupInput) egDupVariable
      = pass1State egDupInput ∧
    addFolderStep egSeenFolderState "x" = egSeenFolderState ∧
    (registerFunction "file:a.ts" "a.ts" initialState 0 egDupFn).nodesMap.get?
        "file:a.ts:fn:f"
      = some { id := "file:a.ts:fn:f", name := "f", type := .function, path := "a.ts",
               line := some 5, parentId := some "file:a.ts", content := some "",
               signature := some "", docComment := some "" } :=
  ⟨C5_amended_insertion_semantics.1 "file:a.ts" "a.ts" (pass1State egDupInput)
      egDupVariable (by decide),
   C5_amended_insertion_semantics.2.1 egSeenFolderState "x" (by decide),
   C5_amended_insertion_semantics.2.2 "file:a.ts" "a.ts" initialState 0
      egDupFn "f" rfl (by decide)⟩

/-- C6: the name→id function registry is last-writer-wins: after pass 1
processes two files that each declare a top-level function named `n`, the
registry (the map tier-1 call resolution reads) holds the second file's
node id under `n`, overwriting the first file's binding. -/
theorem C6_registry_last_writer_wins (root p1 p2 n : String) (l1 l2 : Nat) (st : EngineState)
    (hbs1 : replaceBackslashes p1 = p1) (hbs2 : replaceBackslashes p2 = p2) (hne : n ≠ "")
    (hg1 : strStartsWith p1 ".." = false) (hm1 : strContainsSub p1 "node_modules" = false)
    (hg2 : strStartsWith p2 ".." = false) (hm2 : strContainsSub p2 "node_modules" = false) :
    (processFilePass1 root
        (processFilePass1 root st (simpleFnFile (root ++ "/" ++ p1) n l1))
        (simpleFnFile (root ++ "/" ++ p2) n l2)).fnRegistry.get? n
      = some ("file:" ++ p2 ++ ":fn:" ++ n) ∧
    (processFilePass1 root st (simpleFnFile (root ++ "/" ++ p1) n l1)).fnRegistry.get? n
      = some ("file:" ++ p1 ++ ":fn:" ++ n) := by
  constructor
  · rw [processFilePass1_simple_fnRegistry root p2 n l2 _ hbs2 hne hg2 hm2]
    exact JsMap.get?_set_self _ _ _
  · rw [processFilePass1_simple_fnRegistry root p1 n l1 st hbs1 hne hg1 hm1]
    exact JsMap.get?_set_self _ _ _

theorem C6_witness :
    (processFilePass1 "/r"
        (processFilePass1 "/r" initialState (simpleFnFile "/r/one.ts" "g" 1))
        (simpleFnFile "/r/two.ts" "g" 2)).fnRegistry.get? "g"
      = some "file:two.ts:fn:g" ∧
    (processFilePass1 "/r" initialState (simpleFnFile "/r/one.ts" "g" 1)).fnRegistry.get? "g"
      = some "file:one.ts:fn:g" :=
  C6_registry_last_writer_wins "/r" "one.ts" "two.ts" "g" 1 2 initialState
    (by decide) (by decide) (by decide) (by decide) (by decide) (by decide) (by decide)

/-- C7 counterexample: a file two directories deep produces folder nodes
`x` and `x/y`, yet the nested folder's `parentId` is not `folder:x` — the
engine stores folder nodes with no `parentId` at all, expressing the
hierarchy only through `contains` edges. -/
theorem C7_counterexample :
    (∃ n ∈ (analyze egDeepInput).nodes, n.id = "folder:x") ∧
    (∃ n ∈ (analyze egDeepInput).nodes, n.id = "folder:x/y") ∧
    ¬ (∀ n ∈ (analyze egDeepInput).nodes, n.id = "folder:x/y" →
        n.parentId = some "folder:x") := by
  decide

/-- C7 (amended): parent links in the returned graph: folder nodes carry
no `parentId` (even nested ones); a file node's parent is the folder of
its directory (none at the root); a class node's parent is its file; a
function-typed node's parent is its file, or its class for methods. -/
theorem C7_amended_parent_links (inp : AnalyzeInput) :
    ∀ n ∈ (analyze inp).nodes,
      (n.type = NodeType.folder → n.parentId = none) ∧
      (n.type = NodeType.file →
        n.parentId = if replaceBackslashes (dirname n.path) = "." then none
          else some ("folder:" ++ replaceBackslashes (dirname n.path))) ∧
      (n.type = NodeType.«class» → n.parentId = some ("file:" ++ n.path)) ∧
      (n.type = NodeType.function →
        n.parentId = some ("file:" ++ n.path) ∨
        ∃ c, n.parentId = some ("file:" ++ n.path ++ ":cls:" ++ c)) := by
  intro n hn
  have hn2 : n ∈ (pass2State inp).nodesMap.values := hn
  rw [(pass2State_maps inp).1] at hn2
  obtain ⟨en, hen, hsnd⟩ := List.mem_map.mp hn2
  have hNFR := ((pass1State_inv inp).1.2 en hen).2
  rw [hsnd] at hNFR
  rcases hNFR with ⟨d, -, htype, hpath, hpid, -⟩ | ⟨sf, -, -, htype, hpath, hpid, -⟩ |
    ⟨sf, nm, -, -, htype, hpath, hpid, -⟩ | ⟨sf, nm, -, -, htype, hpath, hpid, -⟩ |
    ⟨sf, cn, mn, -, -, htype, hpath, hpid, -⟩
  · refine ⟨fun _ => hpid, fun hf => ?_, fun hf => ?_, fun hf => ?_⟩
    · rw [htype] at hf
      exact absurd hf (by decide)
    · rw [htype] at hf
      exact absurd hf (by decide)
    · rw [htype] at hf
      exact absurd hf (by decide)
  · refine ⟨fun hf => ?_, fun _ => ?_, fun hf => ?_, fun hf => ?_⟩
    · rw [htype] at hf
      exact absurd hf (by decide)
    · rw [hpath]
      exact hpid
    · rw [htype] at hf
      exact absurd hf (by decide)
    · rw [htype] at hf
      exact absurd hf (by decide)
  · refine ⟨fun hf => ?_, fun hf => ?_, fun hf => ?_, fun _ => Or.inl ?_⟩
    · rw [htype] at hf
      exact absurd hf (by decide)
    · rw [htype] at hf
      exact absurd hf (by decide)
    · rw [htype] at hf
      exact absurd hf (by decide)
    · rw [hpath]
      exact hpid
  · refine ⟨fun hf => ?_, fun hf => ?_, fun _ => ?_, fun hf => ?_⟩
    · rw [htype] at hf
      exact absurd hf (by decide)
    · rw [htype] at hf
      exact absurd hf (by decide)
    · rw [hpath]
      exact hpid
    · rw [htype] at hf
      exact absurd hf (by decide)
  · refine ⟨fun hf => ?_, fun hf => ?_, fun hf => ?_, fun _ => Or.inr ⟨cn, ?_⟩⟩
    · rw [htype] at hf
      exact absurd hf (by decide)
    · rw [htype] at hf
      exact absurd hf (by decide)
    · rw [htype] at hf
      exact absurd hf (by decide)
    · rw [hpath]
      exact hpid

theorem C7_amended_witness :
    ({ id := "folder:x", name := "x", type := NodeType.folder, path := "x", line := none,
       parentId := none, content := none, signature := none,
       docComment := none } : ProjectNode).parentId = none :=
  (C7_amended_parent_links egDeepInput
    { id := "folder:x", name := "x", type := NodeType.folder, path := "x", line := none,
      parentId := none, content := none, signature := none, docComment := none }
    (by decide)).1 rfl

/-- C9: when no input file survives the source-set filter, the run returns
an empty node set and the POST handler surfaces this as a terminal error
event with the descriptive no-source-files message instead of proceeding
with an empty graph. -/
theorem C9_no_source_files_is_error (inp : AnalyzeInput) (h : keptFiles inp = []) :
    (analyze inp).nodes = [] ∧
    postAnalysisGate (analyze inp) = StreamOutcome.errorEvent noSourceFilesMessage := by
  have hn : (analyze inp).nodes = [] := by
    show (pass2State inp).nodesMap.values = []
    rw [(pass2State_maps inp).1]
    unfold pass1State
    rw [h]
    rfl
  refine ⟨hn, ?_⟩
  unfold postAnalysisGate
  rw [hn]
  rfl

theorem C9_witness :
    (analyze egNoSourceInput).nodes = [] ∧
    postAnalysisGate (analyze egNoSourceInput)
      = StreamOutcome.errorEvent noSourceFilesMessage :=
  C9_no_source_files_is_error egNoSourceInput (by decide)

/-- C2: repeated observations of `a` calling `b` aggregate into exactly
one `calls` edge from `a` to `b` in the returned graph, whose `callCount`
equals the number of observed call sites (stated for live endpoint ids of
a well-formed input with at least one observed call site; in particular
three call sites yield one edge with `callCount = 3`, not three edges). -/
theorem C2_call_count_aggregation (inp : AnalyzeInput) (a b : String)
    (hwf : wellFormedInput inp = true)
    (ha : ∃ n ∈ (analyze inp).nodes, n.id = a)
    (hb : ∃ n ∈ (analyze inp).nodes, n.id = b)
    (hc : 1 ≤ observedCallSites inp a b) :
    (analyze inp).edges.filter (callsEdgePred a b)
      = [{ «from» := a, «to» := b, relation := RelationType.calls,
           callCount := some (observedCallSites inp a b) }] := by
  have idArrowFree : ∀ x : String, (∃ n ∈ (analyze inp).nodes, n.id = x) → '→' ∉ x.data := by
    intro x hx
    obtain ⟨n, hn, hnx⟩ := hx
    have hn2 : n ∈ (pass2State inp).nodesMap.values := hn
    rw [(pass2State_maps inp).1] at hn2
    obtain ⟨en, hen, hsnd⟩ := List.mem_map.mp hn2
    have hfact := (pass1State_inv inp).1.2 en hen
    rw [← hnx, ← hsnd]
    exact nodeFromRun_id_arrowFree hfact.2 hwf
  have haf := idArrowFree a ha
  have hbf := idArrowFree b hb
  have hlive : ∀ x : String, (∃ n ∈ (analyze inp).nodes, n.id = x) →
      liveEndpoint inp x = true := by
    intro x hx
    obtain ⟨n, hn, hnx⟩ := hx
    have hn2 : n ∈ (pass2State inp).nodesMap.values := hn
    have hmm : x ∈ (pass2State inp).nodesMap.values.map (fun n => n.id) :=
      List.mem_map.mpr ⟨n, hn2, hnx⟩
    exact List.elem_eq_true_of_mem hmm
  have hobsarrow : ∀ o ∈ (pass2State inp).obs, o.r = RelationType.calls →
      '→' ∉ o.f.data ∧ '→' ∉ o.t.data := fun o ho _ => (pass2State_obsOK inp o ho).2 hwf
  have hcount := applyObs_calls_count haf hbf (pass2State inp).obs JsMap.empty 0 hobsarrow
    (Or.inl ⟨rfl, rfl⟩)
  simp only [Nat.zero_add] at hcount
  have hc2 : 1 ≤ callsObsCount (pass2State inp).obs a b := hc
  rcases hcount with ⟨h0, -⟩ | ⟨-, hm⟩
  · rw [h0] at hc2
    exact absurd hc2 (by decide)
  · have hEMI := edgeMapInv_applyObs (pass2State inp).obs
    have hmem_en := JsMap.get?_mem_entries hm
    have hedges : (analyze inp).edges
        = (applyObs JsMap.empty (pass2State inp).obs).values.filter
            (fun e => liveEndpoint inp e.«from» && liveEndpoint inp e.«to») := rfl
    rw [hedges, filter_and_filter]
    rw [show (applyObs JsMap.empty (pass2State inp).obs).values
        = (applyObs JsMap.empty (pass2State inp).obs).entries.map Prod.snd from rfl]
    have h2 : ((applyObs JsMap.empty (pass2State inp).obs).entries.map Prod.snd).filter
        (fun x => (liveEndpoint inp x.«from» && liveEndpoint inp x.«to»)
          && callsEdgePred a b x)
      = ((applyObs JsMap.empty (pass2State inp).obs).entries.filter
          (fun en => (liveEndpoint inp en.2.«from» && liveEndpoint inp en.2.«to»)
            && callsEdgePred a b en.2)).map Prod.snd := filter_map_snd _ _
    rw [h2]
    have hkeys : ∀ en ∈ (applyObs JsMap.empty (pass2State inp).obs).entries,
        ((liveEndpoint inp en.2.«from» && liveEndpoint inp en.2.«to»)
          && callsEdgePred a b en.2) = true → en.1 = edgeKey a b RelationType.calls := by
      intro en hen hq
      rw [Bool.and_eq_true] at hq
      obtain ⟨hf, ht, hr⟩ := of_decide_eq_true hq.2
      have hkey := (hEMI.2 en hen).1
      rw [hkey, hf, ht, hr]
    have hp : ((fun en : String × ProjectEdge =>
        (liveEndpoint inp en.2.«from» && liveEndpoint inp en.2.«to»)
          && callsEdgePred a b en.2)
        (edgeKey a b RelationType.calls,
          { «from» := a, «to» := b, relation := RelationType.calls,
            callCount := some (callsObsCount (pass2State inp).obs a b) })) = true := by
      rw [Bool.and_eq_true, Bool.and_eq_true]
      exact ⟨⟨hlive a ha, hlive b hb⟩, decide_eq_true ⟨rfl, rfl, rfl⟩⟩
    rw [filter_keyed_single
      (fun en : String × ProjectEdge =>
        (liveEndpoint inp en.2.«from» && liveEndpoint inp en.2.«to»)
          && callsEdgePred a b en.2) hp
      (applyObs JsMap.empty (pass2State inp).obs).entries hEMI.1 hkeys hmem_en]
    rfl

theorem C2_witness :
    (analyze egInput).edges.filter (callsEdgePred "file:b.ts:fn:main" "file:a.ts:fn:helper")
      = [{ «from» := "file:b.ts:fn:main", «to» := "file:a.ts:fn:helper",
           relation := RelationType.calls, callCount := some 3 }] := by
  have h := C2_call_count_aggregation egInput "file:b.ts:fn:main" "file:a.ts:fn:helper"
    (by decide) (by decide) (by decide) (by decide)
  exact h.trans (by decide)

/-- C8: an input file whose normalized path meets the claim's exclusion
condition (a generated/vendored directory segment, an excluded extension,
or a minified name) contributes nothing to the returned graph of a
well-formed input: every returned node carrying that file's engine
relative path is a folder node (so no file/function/class node exists for
it), every edge endpoint resolves to a node not of that path, and no edge
endpoint is that file's id. -/
theorem C8_filter_soundness (inp : AnalyzeInput) (hwf : wellFormedInput inp = true)
    (sf : SourceFile) (hmem : sf ∈ inp.files)
    (hex : claimExcluded (replaceBackslashes sf.absPath) = true) :
    (∀ n ∈ (analyze inp).nodes, n.path = relOf inp sf → n.type = NodeType.folder) ∧
    (∀ e ∈ (analyze inp).edges, ∀ n ∈ (analyze inp).nodes,
      n.id = e.«from» ∨ n.id = e.«to» → n.path ≠ relOf inp sf ∨ n.type = NodeType.folder) ∧
    (∀ e ∈ (analyze inp).edges,
      e.«from» ≠ "file:" ++ relOf inp sf ∧ e.«to» ≠ "file:" ++ relOf inp sf) := by
  have hgood : goodStr (relOf inp sf) :=
    relOf_goodStr (wfFile_spec (wfFile_of_mem hwf hmem)).1
  have hnode : ∀ n ∈ (analyze inp).nodes, n.path = relOf inp sf →
      n.type = NodeType.folder := by
    intro n hn hpath
    have hn2 : n ∈ (pass2State inp).nodesMap.values := hn
    rw [(pass2State_maps inp).1] at hn2
    obtain ⟨en, hen, hsnd⟩ := List.mem_map.mp hn2
    have hNFR := ((pass1State_inv inp).1.2 en hen).2
    rw [hsnd] at hNFR
    rcases hNFR with ⟨d, -, htype, -, -, -⟩ | ⟨sf2, hp2, -, -, hpath2, -, -⟩ |
      ⟨sf2, nm, hp2, -, -, hpath2, -, -⟩ | ⟨sf2, nm, hp2, -, -, hpath2, -, -⟩ |
      ⟨sf2, cn, mn, hp2, -, -, hpath2, -, -⟩
    · exact htype
    · exact absurd (hpath2.symm.trans hpath) (relOf_excluded_ne hwf hmem hex hp2)
    · exact absurd (hpath2.symm.trans hpath) (relOf_excluded_ne hwf hmem hex hp2)
    · exact absurd (hpath2.symm.trans hpath) (relOf_excluded_ne hwf hmem hex hp2)
    · exact absurd (hpath2.symm.trans hpath) (relOf_excluded_ne hwf hmem hex hp2)
  have hid : ∀ n ∈ (analyze inp).nodes, n.id ≠ "file:" ++ relOf inp sf := by
    intro n hn hne
    have hn2 : n ∈ (pass2State inp).nodesMap.values := hn
    rw [(pass2State_maps inp).1] at hn2
    obtain ⟨en, hen, hsnd⟩ := List.mem_map.mp hn2
    have hNFR := ((pass1State_inv inp).1.2 en hen).2
    rw [hsnd] at hNFR
    rcases hNFR with ⟨d, hid2, -, -, -, -⟩ | ⟨sf2, hp2, hid2, -, -, -, -⟩ |
      ⟨sf2, nm, hp2, hid2, -, -, -, -⟩ | ⟨sf2, nm, hp2, hid2, -, -, -, -⟩ |
      ⟨sf2, cn, mn, hp2, hid2, -, -, -, -⟩
    · exact folderId_ne_fileId d (relOf inp sf) (hid2.symm.trans hne)
    · exact relOf_excluded_ne hwf hmem hex hp2
        (strAppend_cancel_left (hid2.symm.trans hne))
    · exact fileId_ne_fnId hgood.1 (hne.symm.trans hid2)
    · exact fileId_ne_clsId hgood.1 (hne.symm.trans hid2)
    · exact fileId_ne_methodId hgood.1 (hne.symm.trans hid2)
  refine ⟨hnode, ?_, ?_⟩
  · intro e he n hn hor
    by_cases hp : n.path = relOf inp sf
    · exact Or.inr (hnode n hn hp)
    · exact Or.inl hp
  · intro e he
    have he2 : e ∈ List.filter
        (fun e : ProjectEdge => liveEndpoint inp e.«from» && liveEndpoint inp e.«to»)
        (applyObs JsMap.empty (pass2State inp).obs).values := he
    have hcond := (List.mem_filter.mp he2).2
    rw [Bool.and_eq_true] at hcond
    constructor
    · intro hbad
      have hmm : e.«from» ∈ (pass2State inp).nodesMap.values.map (fun n => n.id) :=
        List.mem_of_elem_eq_true hcond.1
      obtain ⟨n, hnv, hnid⟩ := List.mem_map.mp hmm
      have hn : n ∈ (analyze inp).nodes := hnv
      exact hid n hn (hnid.trans hbad)
    · intro hbad
      have hmm : e.«to» ∈ (pass2State inp).nodesMap.values.map (fun n => n.id) :=
        List.mem_of_elem_eq_true hcond.2
      obtain ⟨n, hnv, hnid⟩ := List.mem_map.mp hmm
      have hn : n ∈ (analyze inp).nodes := hnv
      exact hid n hn (hnid.trans hbad)

theorem C8_witness :
    ("file:a.ts" : String) ≠ "file:" ++ relOf egC8Input egPngFile ∧
    ("file:a.ts:fn:helper" : String) ≠ "file:" ++ relOf egC8Input egPngFile :=
  (C8_filter_soundness egC8Input (by decide) egPngFile (by decide) (by decide)).2.2
    { «from» := "file:a.ts", «to» := "file:a.ts:fn:helper", relation := .contains,
      callCount := some 1 } (by decide)

/-- C10: every `calls` edge of the returned graph originates at a node of
type `function`: under a well-formed input, the returned node whose id is
the edge's `from` endpoint is function-typed, never a folder, file, or
class node. -/
theorem C10_calls_edges_originate_at_functions (inp : AnalyzeInput)
    (hwf : wellFormedInput inp = true) :
    ∀ e ∈ (analyze inp).edges, e.relation = RelationType.calls →
      ∀ n ∈ (analyze inp).nodes, n.id = e.«from» → n.type = NodeType.function := by
  intro e he hrel n hn hid
  have he2 : e ∈ List.filter
      (fun e : ProjectEdge => liveEndpoint inp e.«from» && liveEndpoint inp e.«to»)
      (applyObs JsMap.empty (pass2State inp).obs).values := he
  have hmem2 : e ∈ (applyObs JsMap.empty (pass2State inp).obs).entries.map (fun x => x.2) :=
    (List.mem_filter.mp he2).1
  obtain ⟨en, hen, hsnd⟩ := List.mem_map.mp hmem2
  obtain ⟨-, hobs, -⟩ := (edgeMapInv_applyObs (pass2State inp).obs).2 en hen
  have hok := pass2State_obsOK inp _ hobs
  have hr : (⟨en.2.«from», en.2.«to», en.2.relation⟩ : Obs).r = RelationType.calls := by
    show en.2.relation = RelationType.calls
    rw [hsnd, hrel]
  have hty := (hok.1 hr).2.2 hwf
  have hn2 : n ∈ (pass2State inp).nodesMap.values := hn
  rw [(pass2State_maps inp).1] at hn2
  obtain ⟨en2, hen2, hsnd2⟩ := List.mem_map.mp hn2
  have hfact := (pass1State_inv inp).1.2 en2 hen2
  have hmem3 : ((n.id, n) : String × ProjectNode) ∈ (pass1State inp).nodesMap.entries := by
    have h1 : en2.2 = n := hsnd2
    have hpair : ((n.id, n) : String × ProjectNode) = en2 := by
      rw [← h1, ← hfact.1]
    rw [hpair]
    exact hen2
  have hget : (pass1State inp).nodesMap.get? n.id = some n :=
    JsMap.get?_of_mem_entries (pass1State_inv inp).1.1 hmem3
  apply hty n
  show (pass1State inp).nodesMap.get? en.2.«from» = some n
  have hfr : en.2.«from» = n.id := by rw [hsnd, ← hid]
  rw [hfr]
  exact hget

theorem C10_witness :
    ({ id := "file:b.ts:fn:main", name := "main", type := .function, path := "b.ts",
       line := some 1, parentId := some "file:b.ts", content := some "",
       signature := some "", docComment := some "" } : ProjectNode).type
      = NodeType.function :=
  C10_calls_edges_originate_at_functions egInput (by decide)
    { «from» := "file:b.ts:fn:main", «to» := "file:a.ts:fn:helper",
      relation := .calls, callCount := some 3 } (by decide) rfl
    { id := "file:b.ts:fn:main", name := "main", type := .function, path := "b.ts",
      line := some 1, parentId := some "file:b.ts", content := some "",
      signature := some "", docComment := some "" } (by decide) rfl

end HuntAnalyzer
